import Mathlib

/-!
# Verification of the IniConfigFile library (HRI-EU/IniConfigFile)

Shallow embedding of `src/IniConfigFile.c` and of the INI store engine it
wraps.  The wrapper functions (`IniConfigFile_init`, `IniConfigFile_getString`,
`IniConfigFile_getInt`, ..., `IniConfigFile_removeKey`, `IniConfigFile_clear`)
are translated directly from the C source.  The underlying minIni engine
(`ini_gets`, `ini_getl`, `ini_puts`, `ini_putl`, `ini_getsection`,
`ini_getkey`) is not part of the repository's `src/` tree, so those
definitions are modelled from the specification, as indicated by their doc
comments.

Strings are modelled as `List Char` (one list per text line; a file is a
`List (List Char)`), C `long`/`int` as `ℤ` (overflow behaviour is explicitly
unspecified by the spec), and C `double` as `ℚ` at the decimal level.
-/

namespace IniSpec

/-- A C string / one line of text, as a list of characters. -/
abbrev Str := List Char

/-- Whitespace characters trimmed by the engine (space, tab, CR, LF). -/
def isWS (c : Char) : Bool :=
  c = ' ' || c = '\t' || c = '\r' || c = '\n'

/-- Strip leading whitespace. -/
def trimL (s : Str) : Str := s.dropWhile isWS

/-- Strip trailing whitespace. -/
def trimR (s : Str) : Str := (s.reverse.dropWhile isWS).reverse

/-- Modelled from the spec: "surrounding whitespace ... is trimmed"
(spec §6); strips leading and trailing whitespace of a line fragment. -/
def trim (s : Str) : Str := trimR (trimL s)

/-- Modelled from the spec: "Section header line: `[name]` — ... everything
between the brackets, taken literally, is the section name" (spec §6).
Returns the section name when the trimmed line is `[...]`. -/
def headerName (l : Str) : Option Str :=
  match trim l with
  | [] => none
  | c :: rest =>
    if c = '[' then
      match rest.reverse with
      | [] => none
      | d :: ds => if d = ']' then some ds.reverse else none
    else none

/-- Modelled from the spec: "Comment line: first non-whitespace character is
`;` or `#`" (spec §6). -/
def isComment (l : Str) : Bool :=
  match trimL l with
  | [] => false
  | c :: _ => c = ';' || c = '#'

/-- Split a line at the first `=` or `:` delimiter (spec §6: "Key/value
line: `key=value` or `key:value`").  Returns the text before and after the
delimiter. -/
def splitDelim : Str → Option (Str × Str)
  | [] => none
  | c :: cs =>
    if c = '=' || c = ':' then some ([], cs)
    else (splitDelim cs).map (fun p => (c :: p.1, p.2))

/-- Modelled from the spec: classify a line as a key/value pair; the key is
the trimmed text before the first delimiter and must be non-empty; section
headers and comment lines are not key/value pairs (spec §6). -/
def parseKV (l : Str) : Option (Str × Str) :=
  if (headerName l).isSome || isComment l then none
  else
    match splitDelim l with
    | none => none
    | some (k, v) =>
      let k' := trim k
      if k' = [] then none else some (k', v)

/-- Cut an (unquoted) value at the first `#`, which starts a trailing
comment (spec §6: "text after the value, starting with `#`, is treated as a
comment and excluded from the value unless quoted"). -/
def cutHash : Str → Str
  | [] => []
  | c :: cs => if c = '#' then [] else c :: cutHash cs

/-- Unescape the interior of a quoted value up to the closing quote:
`\"` stands for a literal quote and `\\` for a literal backslash; the
closing quote terminates the value (anything after it is ignored). -/
def unquote : Str → Str
  | [] => []
  | c :: cs =>
    if c = '"' then []
    else if c = '\\' then
      match cs with
      | [] => [c]
      | d :: ds => if d = '"' || d = '\\' then d :: unquote ds else c :: unquote (d :: ds)
    else c :: unquote cs

/-- Modelled from the spec: extract the value from the text after the
delimiter — "extracts the value substring, strips surrounding whitespace,
strips one layer of surrounding double quotes if present" (spec §4.1);
unquoted values are cut at a trailing `#` comment (spec §6). -/
def extractValue (raw : Str) : Str :=
  match trim raw with
  | [] => []
  | c :: rest => if c = '"' then unquote rest else trimR (cutHash (c :: rest))

/-- Escape a value for quoting on write: the spec says "embedded quotes are
escaped" (spec §4.1); the escape character itself is escaped as well so
that quoting is invertible. -/
def escape : Str → Str
  | [] => []
  | c :: cs => if c = '"' || c = '\\' then '\\' :: c :: escape cs else c :: escape cs

/-- Modelled from the spec: a value is wrapped in double quotes on write
"if it contains leading/trailing whitespace or a double-quote character"
(spec §4.1); a value containing `#` must be quoted as well since `#` starts
a trailing comment (spec §3, §6: "special characters"). -/
def needsQuote (v : Str) : Bool :=
  match v.head?, v.getLast? with
  | some a, some b => isWS a || isWS b || v.contains '"' || v.contains '#'
  | _, _ => false

/-- Modelled from the spec: render a value for a written `key=value` line,
quoting (with escapes) when required (spec §4.1). -/
def renderValue (v : Str) : Str :=
  if needsQuote v then '"' :: (escape v ++ ['"']) else v

/-! ## Read scan

Modelled from the spec: "scans the file from the top; tracks current
section as headers are encountered; on reaching a line inside the target
section whose key matches (case-insensitive key comparison ...), extracts
the value substring" (spec §4.1).  The first matching `(section, key)` in
file order wins (spec §3).  `target = none` is the global section (entries
preceding any header); section names are compared exactly (the spec leaves
section case-sensitivity implementation-chosen). -/

/-- Case-insensitive key comparison (spec §4.1). -/
def keyEq (a b : Str) : Bool := a.map Char.toLower = b.map Char.toLower

/-- Initial "inside the target section" flag: the global section is the
region before any header. -/
def initSec (target : Option Str) : Bool := target = none

/-- Modelled from the spec: the raw (pre-extraction) value text of the
first matching `(section, key)` entry, scanning top to bottom. -/
def findRawGo (target : Option Str) (key : Str) : List Str → Bool → Option Str
  | [], _ => none
  | l :: ls, inSec =>
    match headerName l with
    | some h => findRawGo target key ls (target = some h)
    | none =>
      if inSec then
        match parseKV l with
        | some (k, raw) => if keyEq k key then some raw else findRawGo target key ls inSec
        | none => findRawGo target key ls inSec
      else findRawGo target key ls inSec

/-- Raw value of the first matching entry of a file. -/
def findRaw (lines : List Str) (target : Option Str) (key : Str) : Option Str :=
  findRawGo target key lines (initSec target)

/-- Extracted (trimmed, unquoted) value of the first matching entry. -/
def findValue (lines : List Str) (target : Option Str) (key : Str) : Option Str :=
  (findRaw lines target key).map extractValue

/-- Modelled from the spec: `readString` — return the extracted value
truncated to `bufferSize - 1` characters together with its length; if no
entry matches, return the default truncated the same way with length 0
(spec §4.1).  The returned pair stands for the filled output buffer and the
C return value. -/
def ini_gets (lines : List Str) (sect : Option Str) (key : Str)
    (defValue : Str) (bufferSize : ℕ) : Str × ℕ :=
  match findValue lines sect key with
  | some v => let t := v.take (bufferSize - 1); (t, t.length)
  | none => (defValue.take (bufferSize - 1), 0)

/-! ## Write rewrite (pure content transformation)

Modelled from the spec (§4.1 `writeString`): "copies all unrelated lines
verbatim ..., and at the position of the matching (section, key) line
inserts the new `key=value` line ...; if the key did not previously exist,
the new line is appended at the end of the matching section block (creating
the section header if the section itself did not exist, appended at end of
file)".  A null `value` deletes the key; a null `key` deletes every key of
the section. -/

/-- Replace the first matching `(section, key)` line by `nl`, leaving every
other line verbatim.  Scans with the same section tracking as the read. -/
def replaceGo (target : Option Str) (key : Str) (nl : Str) :
    List Str → Bool → List Str
  | [], _ => []
  | l :: ls, inSec =>
    match headerName l with
    | some h => l :: replaceGo target key nl ls (target = some h)
    | none =>
      if inSec then
        match parseKV l with
        | some (k, _) =>
          if keyEq k key then nl :: ls else l :: replaceGo target key nl ls inSec
        | none => l :: replaceGo target key nl ls inSec
      else l :: replaceGo target key nl ls inSec

/-- The header line `[s]` for a section, or nothing for the global region. -/
def headerFor : Option Str → List Str
  | none => []
  | some s => ['[' :: (s ++ [']'])]

/-- Insert `nl` at the end of the first matching section block: just before
the header that ends the block, or at end of file; if the target section
has no header, append a new header and the line at end of file. -/
def insertGo (target : Option Str) (nl : Str) : List Str → Bool → List Str
  | [], inSec => if inSec then [nl] else headerFor target ++ [nl]
  | l :: ls, inSec =>
    match headerName l with
    | some h =>
      if inSec then nl :: l :: ls
      else l :: insertGo target nl ls (target = some h)
    | none => l :: insertGo target nl ls inSec

/-- Delete the first matching `(section, key)` line; no-op when absent. -/
def removeGo (target : Option Str) (key : Str) : List Str → Bool → List Str
  | [], _ => []
  | l :: ls, inSec =>
    match headerName l with
    | some h => l :: removeGo target key ls (target = some h)
    | none =>
      if inSec then
        match parseKV l with
        | some (k, _) =>
          if keyEq k key then ls else l :: removeGo target key ls inSec
        | none => l :: removeGo target key ls inSec
      else l :: removeGo target key ls inSec

/-- Delete every key/value line of the target section. -/
def removeAllGo (target : Option Str) : List Str → Bool → List Str
  | [], _ => []
  | l :: ls, inSec =>
    match headerName l with
    | some h => l :: removeAllGo target ls (target = some h)
    | none =>
      if inSec ∧ (parseKV l).isSome then removeAllGo target ls inSec
      else l :: removeAllGo target ls inSec

/-- Write a (non-null) value: replace the first matching line when the key
exists anywhere in the target section, otherwise insert at the end of the
first matching section block (or create the section at end of file). -/
def ini_putsVal (lines : List Str) (target : Option Str) (k v : Str) :
    List Str :=
  let nl := k ++ '=' :: renderValue v
  if (findValue lines target k).isSome then
    replaceGo target k nl lines (initSec target)
  else
    insertGo target nl lines (initSec target)

/-- Modelled from the spec: `writeString` content transformation
(spec §4.1); `key = none` deletes every key of the section, `value = none`
deletes the key, otherwise the value is written. -/
def ini_puts (lines : List Str) (target : Option Str)
    (key : Option Str) (value : Option Str) : List Str :=
  match key with
  | none => removeAllGo target lines (initSec target)
  | some k =>
    match value with
    | none => removeGo target k lines (initSec target)
    | some v => ini_putsVal lines target k v

/-! ## File system and the temporary-file commit protocol

Modelled from the spec (§3, §4.1, §5): a write stages the new content in a
temporary file whose name starts with `~` (the reserved marker character
documented in `IniConfigFile.h`), then atomically replaces the original by
a rename; on an I/O failure during the copy the temporary file is
discarded and the original file is untouched. -/

/-- A flat file system: file name to content. -/
def FS := Str → Option (List Str)

/-- Write (create or overwrite) a file. -/
def fsSet (fs : FS) (n : Str) (c : List Str) : FS :=
  fun m => if m = n then some c else fs m

/-- Remove a file. -/
def fsRemove (fs : FS) (n : Str) : FS :=
  fun m => if m = n then none else fs m

/-- Temporary file name: the original name prefixed with the marker `~`. -/
def tmpName (path : Str) : Str := '~' :: path

/-- Stage lines one at a time into the file `tmp`; `failAt = some i`
injects an I/O failure at line index `i` (the copy stops and reports
failure). -/
def writeLinesGo (tmp : Str) :
    List Str → ℕ → Option ℕ → FS → Bool × FS
  | [], _, _, fs => (true, fs)
  | l :: ls, i, failAt, fs =>
    if failAt = some i then (false, fs)
    else writeLinesGo tmp ls (i + 1) failAt (fsSet fs tmp ((fs tmp).getD [] ++ [l]))

/-- Modelled from the spec: the temporary-file write protocol — create the
temporary file, copy the new content into it line by line, and commit by a
rename over the original (the sole commit point); on failure discard the
temporary file and leave the original untouched (spec §3, §4.1, §5). -/
def runWrite (fs : FS) (path : Str) (newContent : List Str)
    (failAt : Option ℕ) : Bool × FS :=
  let tmp := tmpName path
  let fs1 := fsSet fs tmp []
  let r := writeLinesGo tmp newContent 0 failAt fs1
  if r.1 then
    (true, fsRemove (fsSet r.2 path ((r.2 tmp).getD [])) tmp)
  else
    (false, fsRemove r.2 tmp)

/-- Modelled from the spec: a full `writeString` against the file system,
combining the content rewrite with the temporary-file commit protocol. -/
def ini_putsFS (fs : FS) (path : Str) (target : Option Str)
    (key : Option Str) (value : Option Str) (failAt : Option ℕ) :
    Bool × FS :=
  runWrite fs path (ini_puts ((fs path).getD []) target key value) failAt

/-! ## Enumeration -/

/-- Modelled from the spec: scan for the `idx`-th section header, top to
bottom (spec §4.1 `enumerateSections`). -/
def getsectionGo : List Str → ℕ → Option Str
  | [], _ => none
  | l :: ls, idx =>
    match headerName l with
    | some h => if idx = 0 then some h else getsectionGo ls (idx - 1)
    | none => getsectionGo ls idx

/-- All section header names of a file, in file order. -/
def sectionList (lines : List Str) : List Str := lines.filterMap headerName

/-- Modelled from the spec: scan for the `idx`-th key of the target
section (spec §4.1 `enumerateKeys`); `target = none` scans the keys before
any section header. -/
def getkeyGo (target : Option Str) : List Str → Bool → ℕ → Option Str
  | [], _, _ => none
  | l :: ls, inSec, idx =>
    match headerName l with
    | some h => getkeyGo target ls (target = some h) idx
    | none =>
      if inSec then
        match parseKV l with
        | some (k, _) => if idx = 0 then some k else getkeyGo target ls inSec (idx - 1)
        | none => getkeyGo target ls inSec idx
      else getkeyGo target ls inSec idx

/-- All keys of the target section, in file order. -/
def keyListGo (target : Option Str) : List Str → Bool → List Str
  | [], _ => []
  | l :: ls, inSec =>
    match headerName l with
    | some h => keyListGo target ls (target = some h)
    | none =>
      if inSec then
        match parseKV l with
        | some (k, _) => k :: keyListGo target ls inSec
        | none => keyListGo target ls inSec
      else keyListGo target ls inSec

/-- All keys of the target section of a file. -/
def keyList (lines : List Str) (target : Option Str) : List Str :=
  keyListGo target lines (initSec target)

/-- Modelled from the spec: `enumerateSections` — the `idx`-th header name
truncated to the buffer, with its length as return value; an exhausted
index yields the empty result with length 0 (spec §4.1). -/
def ini_getsection (lines : List Str) (idx : ℕ) (bufferSize : ℕ) : Str × ℕ :=
  match getsectionGo lines idx with
  | some name => let t := name.take (bufferSize - 1); (t, t.length)
  | none => ([], 0)

/-- Modelled from the spec: `enumerateKeys` — the `idx`-th key of the
target section, with the same positional contract (spec §4.1). -/
def ini_getkey (lines : List Str) (target : Option Str) (idx : ℕ)
    (bufferSize : ℕ) : Str × ℕ :=
  match getkeyGo target lines (initSec target) idx with
  | some name => let t := name.take (bufferSize - 1); (t, t.length)
  | none => ([], 0)

/-! ## Numeric formatting and parsing

C `long` / `int` are modelled as `ℤ` (the spec leaves overflow behaviour
unspecified); C `double` is modelled as `ℚ` at the decimal level. -/

/-- The decimal digit character for `n % 10`. -/
def dig (n : ℕ) : Char := Char.ofNat (48 + n % 10)

/-- Base-10 digits of a natural number, via fuelled division (the fuel is
always at least the number itself, which suffices). -/
def natToDigitsAux : ℕ → ℕ → Str
  | 0, _ => []
  | fuel + 1, n => if n = 0 then [] else natToDigitsAux fuel (n / 10) ++ [dig n]

/-- Plain base-10 rendering of a natural number. -/
def natToStr (n : ℕ) : Str := if n = 0 then ['0'] else natToDigitsAux n n

/-- Plain base-10 rendering of an integer (C `"%ld"` / `"%d"`). -/
def intToStr (v : ℤ) : Str :=
  if v < 0 then '-' :: natToStr v.natAbs else natToStr v.natAbs

/-- Value of a digit run, accumulator style (as a C scanning loop would
compute it); stops at the first non-digit character. -/
def parseDigitsAcc : Str → ℤ → ℤ
  | [], acc => acc
  | c :: cs, acc =>
    if c.isDigit then parseDigitsAcc cs (10 * acc + ((c.toNat - 48 : ℕ) : ℤ)) else acc

/-- Modelled from the spec: the C `atoi` used by `IniConfigFile_getInt` —
skip leading whitespace, optional sign, then a base-10 digit run, ignoring
trailing junk (spec §4.1: "parse leading numeral, ignore trailing junk"). -/
def atoi (s : Str) : ℤ :=
  let t := s.dropWhile isWS
  if t.head? = some '-' then - parseDigitsAcc t.tail 0
  else if t.head? = some '+' then parseDigitsAcc t.tail 0
  else parseDigitsAcc t 0

/-- Value of a maximal leading digit run, fold style. -/
def digitsToNat (s : Str) : ℕ :=
  (s.takeWhile Char.isDigit).foldl (fun a c => 10 * a + (c.toNat - 48)) 0

/-- Modelled from the spec: `strtol(s, NULL, 10)` as used by the long read
— skip leading whitespace, optional sign, base-10 digit run, stopping at
the first non-numeric character (spec §4.1). -/
def strtol10 (s : Str) : ℤ :=
  let t := s.dropWhile isWS
  if t.head? = some '-' then - (digitsToNat t.tail : ℤ)
  else if t.head? = some '+' then (digitsToNat t.tail : ℤ)
  else (digitsToNat t : ℤ)

/-- The scanner half of `strtod`: sign, integer-part value, fraction-part
value, fraction length and exponent, scanned leniently left to right
(stopping at the first non-numeric character). -/
def strtodParts (s : Str) : Bool × ℕ × ℕ × ℕ × ℤ :=
  let t0 := s.dropWhile isWS
  let neg := decide (t0.head? = some '-')
  let t1 := if t0.head? = some '-' || t0.head? = some '+' then t0.tail else t0
  let ip := t1.takeWhile Char.isDigit
  let t2 := t1.dropWhile Char.isDigit
  let fp := if t2.head? = some '.' then t2.tail.takeWhile Char.isDigit else []
  let t3 := if t2.head? = some '.' then t2.tail.dropWhile Char.isDigit else t2
  let ex : ℤ :=
    if t3.head? = some 'e' || t3.head? = some 'E' then
      let r := t3.tail
      if r.head? = some '-' then - (digitsToNat r.tail : ℤ)
      else if r.head? = some '+' then (digitsToNat r.tail : ℤ)
      else (digitsToNat r : ℤ)
    else 0
  (neg, digitsToNat ip, digitsToNat fp, fp.length, ex)

/-- Modelled from the spec: `strtod` at the decimal level — skip leading
whitespace, optional sign, integer digits, optional fraction, optional
exponent; lenient, stopping at the first non-numeric character
(spec §4.1). -/
def strtod (s : Str) : ℚ :=
  let p := strtodParts s
  (if p.1 then -1 else 1) *
    ((p.2.1 : ℚ) + (p.2.2.1 : ℚ) / 10 ^ p.2.2.2.1) * 10 ^ p.2.2.2.2

/-- Decimal exponent of a positive rational: the `e` with
`10 ^ e ≤ q < 10 ^ (e + 1)`. -/
def findExp (q : ℚ) : ℤ :=
  let d0 : ℤ := (Nat.log 10 q.num.natAbs : ℤ) - (Nat.log 10 q.den : ℤ)
  if q < 10 ^ d0 then d0 - 1 else if q < 10 ^ (d0 + 1) then d0 else d0 + 1

/-- Round to the nearest integer, halves up. -/
def roundQ (q : ℚ) : ℤ := ⌊q + 1 / 2⌋

/-- The six fraction digits of a 7-digit mantissa. -/
def frac6 (m : ℕ) : Str :=
  [dig (m / 100000), dig (m / 10000), dig (m / 1000), dig (m / 100),
   dig (m / 10), dig m]

/-- At-least-two-digit exponent field of `%e`. -/
def expDigits (e : ℕ) : Str :=
  if e < 10 then ['0', dig e] else natToStr e

/-- Modelled from the spec: the C `"%e"` conversion used by
`IniConfigFile_putDouble` — scientific notation with the default precision
of six fraction digits, `d.ddddddе±XX` shaped (sign, one leading digit, six
fraction digits, two-or-more exponent digits). -/
def formatE6 (q : ℚ) : Str :=
  if q = 0 then '0' :: '.' :: frac6 0 ++ ['e', '+', '0', '0']
  else
    let sgn : Str := if q < 0 then ['-'] else []
    let aq := |q|
    let e0 := findExp aq
    let m0 := roundQ (aq * 10 ^ ((6 : ℤ) - e0))
    let m := (if m0 ≥ 10 ^ 7 then m0 / 10 else m0).toNat
    let e := if m0 ≥ 10 ^ 7 then e0 + 1 else e0
    sgn ++ dig (m / 1000000) :: '.' ::
      (frac6 m ++ 'e' :: (if e < 0 then '-' else '+') :: expDigits e.natAbs)

/-- Modelled from the spec: `readLong` — a 64-byte bounded string read with
the empty string as internal default, then a lenient base-10 parse; a
zero-length read yields the default without parsing (spec §4.1). -/
def ini_getl (lines : List Str) (sect : Option Str) (key : Str)
    (defValue : ℤ) : ℤ :=
  let r := ini_gets lines sect key [] 64
  if r.2 = 0 then defValue else strtol10 r.1

/-- Modelled from the spec: `writeLong` — format the number in plain
base-10 and delegate to the string write (spec §4.1). -/
def ini_putl (lines : List Str) (sect : Option Str) (key : Str)
    (value : ℤ) : List Str :=
  ini_puts lines sect (some key) (some (intToStr value))

/-! ## The wrapper layer (`src/IniConfigFile.c`)

Each public function is translated directly from the C source.  A C
pointer argument that may be `NULL` is an `Option`; an `ANY_REQUIRE`
failure is the `fault` outcome (a fatal assertion, not an error return).
Reads take the file system as an explicit argument; a missing file behaves
as an empty file (the engine's read open fails and falls back to the
default).  Writes model the successful I/O path (`ini_putsFS` above covers
the failure path) and return the updated file system. -/

/-- Outcome of a call: a normal return or a fatal `ANY_REQUIRE` fault. -/
inductive CResult (α : Type) where
  | fault : CResult α
  | ok : α → CResult α
  deriving DecidableEq, Repr

/-- Map over the normal outcome. -/
def CResult.map {α β : Type} (f : α → β) : CResult α → CResult β
  | .fault => .fault
  | .ok a => .ok (f a)

/-- `INICONFIGFILE_VALID` (IniConfigFile.c line 47). -/
def INICONFIGFILE_VALID : ℕ := 0x26aec137

/-- `INICONFIGFILE_INVALID` (IniConfigFile.c line 48). -/
def INICONFIGFILE_INVALID : ℕ := 0xb00db00f

/-- The `IniConfigFile` struct: validity sentinel and owned file name
(`NULL` after clear). -/
structure IniConfigFile where
  valid : ℕ
  fileName : Option Str
  deriving DecidableEq, Repr

/-- Content of the handle's file (a missing or unopened file reads as
empty; the `none` file-name case is unreachable for a valid handle). -/
def fileOf (fs : FS) : Option Str → List Str
  | none => []
  | some n => (fs n).getD []

/-- `IniConfigFile_init`: requires a non-null handle and a non-null file
name, duplicates the name into the handle and marks it valid.  The
`Any_strdup` allocation-failure path is modelled as always succeeding. -/
def IniConfigFile_init (self : Option IniConfigFile) (fileName : Option Str) :
    CResult (Bool × IniConfigFile) :=
  match self with
  | none => .fault
  | some _ =>
    match fileName with
    | none => .fault
    | some fn => .ok (true, { valid := INICONFIGFILE_VALID, fileName := some fn })

/-- `IniConfigFile_getString`: requires handle, validity, non-null buffer,
positive buffer size, non-null key and non-null file name, then delegates
to `ini_gets`. -/
def IniConfigFile_getString (self : Option IniConfigFile) (fs : FS)
    (sect : Option Str) (key : Option Str) (defValue : Str)
    (bufferNonNull : Bool) (bufferSize : ℤ) : CResult (Str × ℕ) :=
  match self with
  | none => .fault
  | some h =>
    if h.valid ≠ INICONFIGFILE_VALID then .fault
    else if ¬ bufferNonNull then .fault
    else if ¬ (bufferSize > 0) then .fault
    else
      match key with
      | none => .fault
      | some k =>
        match h.fileName with
        | none => .fault
        | some fn => .ok (ini_gets ((fs fn).getD []) sect k defValue bufferSize.toNat)

/-- `IniConfigFile_getLong`: requires handle and validity only, then
delegates to `ini_getl`. -/
def IniConfigFile_getLong (self : Option IniConfigFile) (fs : FS)
    (sect : Option Str) (key : Str) (defValue : ℤ) : CResult ℤ :=
  match self with
  | none => .fault
  | some h =>
    if h.valid ≠ INICONFIGFILE_VALID then .fault
    else .ok (ini_getl (fileOf fs h.fileName) sect key defValue)

/-- `IniConfigFile_getInt`: requires handle and validity, reads into a
64-byte buffer with the empty string as default, and applies `atoi` unless
the read length is zero. -/
def IniConfigFile_getInt (self : Option IniConfigFile) (fs : FS)
    (sect : Option Str) (key : Str) (defValue : ℤ) : CResult ℤ :=
  match self with
  | none => .fault
  | some h =>
    if h.valid ≠ INICONFIGFILE_VALID then .fault
    else
      let r := ini_gets (fileOf fs h.fileName) sect key [] 64
      .ok (if r.2 = 0 then defValue else atoi r.1)

/-- `IniConfigFile_getDouble`: requires handle and validity, reads into a
64-byte buffer with the empty string as default, and applies `strtod`
unless the read length is zero. -/
def IniConfigFile_getDouble (self : Option IniConfigFile) (fs : FS)
    (sect : Option Str) (key : Str) (defValue : ℚ) : CResult ℚ :=
  match self with
  | none => .fault
  | some h =>
    if h.valid ≠ INICONFIGFILE_VALID then .fault
    else
      let r := ini_gets (fileOf fs h.fileName) sect key [] 64
      .ok (if r.2 = 0 then defValue else strtod r.1)

/-- `IniConfigFile_getSection`: requires handle, validity, non-null
buffer, positive buffer size and a non-negative index, then delegates to
`ini_getsection`. -/
def IniConfigFile_getSection (self : Option IniConfigFile) (fs : FS)
    (idx : ℤ) (bufferNonNull : Bool) (bufferSize : ℤ) : CResult (Str × ℕ) :=
  match self with
  | none => .fault
  | some h =>
    if h.valid ≠ INICONFIGFILE_VALID then .fault
    else if ¬ bufferNonNull then .fault
    else if ¬ (bufferSize > 0) then .fault
    else if ¬ (idx ≥ 0) then .fault
    else .ok (ini_getsection (fileOf fs h.fileName) idx.toNat bufferSize.toNat)

/-- `IniConfigFile_getKey`: requires handle, validity, non-null buffer,
positive buffer size, non-negative index and non-null file name, then
delegates to `ini_getkey`. -/
def IniConfigFile_getKey (self : Option IniConfigFile) (fs : FS)
    (sect : Option Str) (idx : ℤ) (bufferNonNull : Bool) (bufferSize : ℤ) :
    CResult (Str × ℕ) :=
  match self with
  | none => .fault
  | some h =>
    if h.valid ≠ INICONFIGFILE_VALID then .fault
    else if ¬ bufferNonNull then .fault
    else if ¬ (bufferSize > 0) then .fault
    else if ¬ (idx ≥ 0) then .fault
    else
      match h.fileName with
      | none => .fault
      | some fn => .ok (ini_getkey ((fs fn).getD []) sect idx.toNat bufferSize.toNat)

/-- `IniConfigFile_putString`: requires handle, validity and non-null file
name, then delegates to the engine's string write; returns the success
status (1 on the modelled successful I/O path) and the updated file
system. -/
def IniConfigFile_putString (self : Option IniConfigFile) (fs : FS)
    (sect : Option Str) (key : Option Str) (value : Option Str) :
    CResult (ℤ × FS) :=
  match self with
  | none => .fault
  | some h =>
    if h.valid ≠ INICONFIGFILE_VALID then .fault
    else
      match h.fileName with
      | none => .fault
      | some fn => .ok (1, fsSet fs fn (ini_puts ((fs fn).getD []) sect key value))

/-- `IniConfigFile_putLong`: requires handle, validity and non-null file
name, then delegates to `ini_putl`. -/
def IniConfigFile_putLong (self : Option IniConfigFile) (fs : FS)
    (sect : Option Str) (key : Str) (value : ℤ) : CResult (ℤ × FS) :=
  match self with
  | none => .fault
  | some h =>
    if h.valid ≠ INICONFIGFILE_VALID then .fault
    else
      match h.fileName with
      | none => .fault
      | some fn => .ok (1, fsSet fs fn (ini_putl ((fs fn).getD []) sect key value))

/-- `IniConfigFile_putInt`: formats the value with `"%d"` into a 32-byte
buffer and delegates to `IniConfigFile_putString`. -/
def IniConfigFile_putInt (self : Option IniConfigFile) (fs : FS)
    (sect : Option Str) (key : Str) (value : ℤ) : CResult (ℤ × FS) :=
  match self with
  | none => .fault
  | some h =>
    if h.valid ≠ INICONFIGFILE_VALID then .fault
    else
      match h.fileName with
      | none => .fault
      | some _ =>
        IniConfigFile_putString self fs sect (some key)
          (some ((intToStr value).take 31))

/-- `IniConfigFile_putDouble`: formats the value with `"%e"` into a
32-byte buffer and delegates to `IniConfigFile_putString`. -/
def IniConfigFile_putDouble (self : Option IniConfigFile) (fs : FS)
    (sect : Option Str) (key : Str) (value : ℚ) : CResult (ℤ × FS) :=
  match self with
  | none => .fault
  | some h =>
    if h.valid ≠ INICONFIGFILE_VALID then .fault
    else
      match h.fileName with
      | none => .fault
      | some _ =>
        IniConfigFile_putString self fs sect (some key)
          (some ((formatE6 value).take 31))

/-- `IniConfigFile_removeKey`: delegates to `IniConfigFile_putString` with
a null value and discards the status (the C function returns `void`; the
updated file system is the observable effect). -/
def IniConfigFile_removeKey (self : Option IniConfigFile) (fs : FS)
    (sect : Option Str) (key : Option Str) : CResult FS :=
  (IniConfigFile_putString self fs sect key none).map (fun r => r.2)

/-- `IniConfigFile_clear`: requires handle, validity and non-null file
name, then invalidates the handle and releases the name. -/
def IniConfigFile_clear (self : Option IniConfigFile) : CResult IniConfigFile :=
  match self with
  | none => .fault
  | some h =>
    if h.valid ≠ INICONFIGFILE_VALID then .fault
    else
      match h.fileName with
      | none => .fault
      | some _ => .ok { valid := INICONFIGFILE_INVALID, fileName := none }

/-! ## Well-formedness side conditions

The INI file format implicitly constrains the text that can serve as a key,
a section name, or a value: a key must be a non-empty trimmed token free of
the delimiter, comment and bracket characters, and nothing stored in a
line-oriented file may contain a line terminator. -/

/-- A key the file format can faithfully store. -/
def GoodKey (k : Str) : Prop :=
  k ≠ [] ∧ trim k = k ∧ '=' ∉ k ∧ ':' ∉ k ∧ '\n' ∉ k ∧
    k.head? ≠ some '[' ∧ k.head? ≠ some ';' ∧ k.head? ≠ some '#'

/-- A section name the file format can faithfully store. -/
def GoodSec : Option Str → Prop
  | none => True
  | some s => '\n' ∉ s

/-- A value that fits on a single line. -/
def GoodVal (v : Str) : Prop := '\n' ∉ v ∧ '\r' ∉ v

/-! ## Concrete inputs used to exercise the double round-trip

`1 + 2⁻²³` and `2 + 2⁻²²` are exactly representable IEEE binary64 values
(dyadic rationals with short mantissas), given with explicit numerator and
denominator so that their components are definitionally available. -/

/-- The double `1 + 2⁻²³ = 8388609/8388608`. -/
def dblCex : ℚ := Rat.mk' 8388609 8388608 (by decide) (by decide)

/-- The double `2 + 2⁻²² = 8388609/4194304`. -/
def dblCex2 : ℚ := Rat.mk' 8388609 4194304 (by decide) (by decide)

/-- The `%e` rendering of any double that rounds to 1 at six fraction
digits. -/
def eStr1 : Str := ['1', '.', '0', '0', '0', '0', '0', '0', 'e', '+', '0', '0']

/-- The `%e` rendering of any double that rounds to 2 at six fraction
digits. -/
def eStr2 : Str := ['2', '.', '0', '0', '0', '0', '0', '0', 'e', '+', '0', '0']

/-! ## Digit characters -/

theorem digitChar_facts :
    ∀ j < 10, (Char.ofNat (48 + j)).isDigit = true ∧
      (Char.ofNat (48 + j)).toNat = 48 + j ∧
      isWS (Char.ofNat (48 + j)) = false ∧
      Char.ofNat (48 + j) ≠ '-' ∧ Char.ofNat (48 + j) ≠ '+' := by decide

theorem dig_isDigit (n : ℕ) : (dig n).isDigit = true :=
  (digitChar_facts (n % 10) (Nat.mod_lt _ (by norm_num))).1

theorem dig_toNat (n : ℕ) : (dig n).toNat = 48 + n % 10 :=
  (digitChar_facts (n % 10) (Nat.mod_lt _ (by norm_num))).2.1

theorem dig_not_ws (n : ℕ) : isWS (dig n) = false :=
  (digitChar_facts (n % 10) (Nat.mod_lt _ (by norm_num))).2.2.1

theorem dig_ne_minus (n : ℕ) : dig n ≠ '-' :=
  (digitChar_facts (n % 10) (Nat.mod_lt _ (by norm_num))).2.2.2.1

theorem dig_ne_plus (n : ℕ) : dig n ≠ '+' :=
  (digitChar_facts (n % 10) (Nat.mod_lt _ (by norm_num))).2.2.2.2

/-! ## `atoi` agrees with `strtol(·, NULL, 10)` -/

theorem parseDigitsAcc_eq_foldl (s : Str) (a : ℕ) :
    parseDigitsAcc s (a : ℤ) =
      (((s.takeWhile Char.isDigit).foldl (fun x c => 10 * x + (c.toNat - 48)) a : ℕ) : ℤ) := by
  induction s generalizing a with
  | nil => simp [parseDigitsAcc]
  | cons c cs ih =>
    by_cases hc : c.isDigit
    · rw [parseDigitsAcc, if_pos hc, List.takeWhile_cons_of_pos hc, List.foldl_cons]
      have : (10 * (a : ℤ) + ((c.toNat - 48 : ℕ) : ℤ)) = ((10 * a + (c.toNat - 48) : ℕ) : ℤ) := by
        push_cast; ring
      rw [this, ih]
    · rw [parseDigitsAcc, if_neg hc, List.takeWhile_cons_of_neg hc]
      simp

theorem parseDigitsAcc_zero_eq (s : Str) :
    parseDigitsAcc s 0 = (digitsToNat s : ℤ) := by
  simpa [digitsToNat] using parseDigitsAcc_eq_foldl s 0

theorem atoi_eq_strtol10 (s : Str) : atoi s = strtol10 s := by
  unfold atoi strtol10
  by_cases h1 : (s.dropWhile isWS).head? = some '-'
  · simp [h1, parseDigitsAcc_zero_eq]
  · by_cases h2 : (s.dropWhile isWS).head? = some '+'
    · simp [h1, h2, parseDigitsAcc_zero_eq]
    · simp [h1, h2, parseDigitsAcc_zero_eq]

/-- C5: `IniConfigFile_getInt` is the long-read operation narrowed to the
native integer width: with integers modelled as `ℤ` (overflow behaviour is
unspecified by the spec), `getInt` and `getLong` coincide on every handle,
file system, section, key and default, fault cases included. -/
theorem C5_getInt_refines_getLong (self : Option IniConfigFile) (fs : FS)
    (sect : Option Str) (key : Str) (defValue : ℤ) :
    IniConfigFile_getInt self fs sect key defValue =
      IniConfigFile_getLong self fs sect key defValue := by
  unfold IniConfigFile_getInt IniConfigFile_getLong ini_getl
  cases self with
  | none => rfl
  | some h =>
    by_cases hv : h.valid ≠ INICONFIGFILE_VALID
    · simp [hv]
    · simp only [hv, if_false, atoi_eq_strtol10]

/-- C9 counterexample: `IniConfigFile_init` accepts the empty path — its
`ANY_REQUIRE( fileName )` only rejects a null pointer, so initializing with
`""` succeeds (returns `true`, no fault), contradicting "open/init requires
a non-empty path". -/
theorem C9_init_empty_path_cex :
    IniConfigFile_init (some { valid := 0, fileName := none }) (some []) =
        .ok (true, { valid := INICONFIGFILE_VALID, fileName := some [] }) ∧
      IniConfigFile_init (some { valid := 0, fileName := none }) (some []) ≠ .fault := by
  constructor
  · rfl
  · intro hcontra
    exact CResult.noConfusion hcontra

/-- C9 (amended): contract violations fault as the code checks them —
every public operation faults on a null handle and on a handle whose
validity sentinel is not `INICONFIGFILE_VALID` (uninitialized or cleared);
`getString` additionally faults on a null buffer, non-positive buffer size
or null key; `getSection`/`getKey` fault on a null buffer, non-positive
buffer size or negative index; `init` faults on a null handle or null (not
merely empty) path, and on success merely binds the path into the handle
without touching any file. -/
theorem C9_contract_faults (h : IniConfigFile) (fs : FS) (sect : Option Str)
    (key : Str) (okey : Option Str) (d : Str) (dl : ℤ) (dq : ℚ)
    (value : Option Str) (bsz idx : ℤ) (p : Str) :
    (IniConfigFile_init none (some p) = .fault) ∧
    (IniConfigFile_init (some h) none = .fault) ∧
    (IniConfigFile_init (some h) (some p) =
        .ok (true, { valid := INICONFIGFILE_VALID, fileName := some p })) ∧
    (IniConfigFile_getString none fs sect okey d true bsz = .fault) ∧
    (IniConfigFile_getLong none fs sect key dl = .fault) ∧
    (IniConfigFile_getInt none fs sect key dl = .fault) ∧
    (IniConfigFile_getDouble none fs sect key dq = .fault) ∧
    (IniConfigFile_getSection none fs idx true bsz = .fault) ∧
    (IniConfigFile_getKey none fs sect idx true bsz = .fault) ∧
    (IniConfigFile_putString none fs sect okey value = .fault) ∧
    (IniConfigFile_putLong none fs sect key dl = .fault) ∧
    (IniConfigFile_putInt none fs sect key dl = .fault) ∧
    (IniConfigFile_putDouble none fs sect key dq = .fault) ∧
    (IniConfigFile_removeKey none fs sect okey = .fault) ∧
    (IniConfigFile_clear none = .fault) ∧
    (h.valid ≠ INICONFIGFILE_VALID →
      IniConfigFile_getString (some h) fs sect okey d true bsz = .fault ∧
      IniConfigFile_getLong (some h) fs sect key dl = .fault ∧
      IniConfigFile_getInt (some h) fs sect key dl = .fault ∧
      IniConfigFile_getDouble (some h) fs sect key dq = .fault ∧
      IniConfigFile_getSection (some h) fs idx true bsz = .fault ∧
      IniConfigFile_getKey (some h) fs sect idx true bsz = .fault ∧
      IniConfigFile_putString (some h) fs sect okey value = .fault ∧
      IniConfigFile_putLong (some h) fs sect key dl = .fault ∧
      IniConfigFile_putInt (some h) fs sect key dl = .fault ∧
      IniConfigFile_putDouble (some h) fs sect key dq = .fault ∧
      IniConfigFile_removeKey (some h) fs sect okey = .fault ∧
      IniConfigFile_clear (some h) = .fault) ∧
    (IniConfigFile_getString (some h) fs sect okey d false bsz = .fault) ∧
    (bsz ≤ 0 → IniConfigFile_getString (some h) fs sect okey d true bsz = .fault) ∧
    (IniConfigFile_getString (some h) fs sect none d true bsz = .fault) ∧
    (IniConfigFile_getSection (some h) fs idx false bsz = .fault) ∧
    (bsz ≤ 0 → IniConfigFile_getSection (some h) fs idx true bsz = .fault) ∧
    (idx < 0 → IniConfigFile_getSection (some h) fs idx true bsz = .fault) ∧
    (IniConfigFile_getKey (some h) fs sect idx false bsz = .fault) ∧
    (bsz ≤ 0 → IniConfigFile_getKey (some h) fs sect idx true bsz = .fault) ∧
    (idx < 0 → IniConfigFile_getKey (some h) fs sect idx true bsz = .fault) := by
  refine ⟨rfl, rfl, rfl, rfl, rfl, rfl, rfl, rfl, rfl, rfl, rfl, rfl, rfl, rfl, rfl,
    fun hv => ?_, ?_, fun hb => ?_, ?_, ?_, fun hb => ?_, fun hi => ?_, ?_,
    fun hb => ?_, fun hi => ?_⟩
  · exact ⟨by simp [IniConfigFile_getString, hv], by simp [IniConfigFile_getLong, hv],
      by simp [IniConfigFile_getInt, hv], by simp [IniConfigFile_getDouble, hv],
      by simp [IniConfigFile_getSection, hv], by simp [IniConfigFile_getKey, hv],
      by simp [IniConfigFile_putString, hv], by simp [IniConfigFile_putLong, hv],
      by simp [IniConfigFile_putInt, hv],
      by simp [IniConfigFile_putDouble, IniConfigFile_putString, hv],
      by simp [IniConfigFile_removeKey, IniConfigFile_putString, hv, CResult.map],
      by simp [IniConfigFile_clear, hv]⟩
  · by_cases hv : h.valid = INICONFIGFILE_VALID <;> simp [IniConfigFile_getString, hv]
  · by_cases hv : h.valid = INICONFIGFILE_VALID <;>
      simp [IniConfigFile_getString, hv, show ¬ (bsz > 0) from not_lt.mpr hb]
  · by_cases hv : h.valid = INICONFIGFILE_VALID <;>
      by_cases hb : bsz > 0 <;> simp [IniConfigFile_getString, hv, hb]
  · by_cases hv : h.valid = INICONFIGFILE_VALID <;> simp [IniConfigFile_getSection, hv]
  · by_cases hv : h.valid = INICONFIGFILE_VALID <;>
      simp [IniConfigFile_getSection, hv, show ¬ (bsz > 0) from not_lt.mpr hb]
  · by_cases hv : h.valid = INICONFIGFILE_VALID <;>
      by_cases hb : bsz > 0 <;>
        simp [IniConfigFile_getSection, hv, hb, show ¬ (idx ≥ 0) from not_le.mpr hi]
  · by_cases hv : h.valid = INICONFIGFILE_VALID <;> simp [IniConfigFile_getKey, hv]
  · by_cases hv : h.valid = INICONFIGFILE_VALID <;>
      simp [IniConfigFile_getKey, hv, show ¬ (bsz > 0) from not_lt.mpr hb]
  · by_cases hv : h.valid = INICONFIGFILE_VALID <;>
      by_cases hb : bsz > 0 <;>
        simp [IniConfigFile_getKey, hv, hb, show ¬ (idx ≥ 0) from not_le.mpr hi]

/-- Witness for C9: the amended contract theorem applied at concrete
inputs — an uninitialized handle (sentinel 0) faults on a long read, a
zero buffer size faults on a string read, and a negative index faults on a
section enumeration. -/
theorem C9_contract_faults_witness :
    IniConfigFile_getLong (some { valid := 0, fileName := none })
        (fun _ => none) none [] 5 = .fault ∧
      IniConfigFile_getString
          (some { valid := INICONFIGFILE_VALID, fileName := some [] })
          (fun _ => none) none (some []) [] true 0 = .fault ∧
      IniConfigFile_getSection
          (some { valid := INICONFIGFILE_VALID, fileName := some [] })
          (fun _ => none) (-1) true 4 = .fault := by
  obtain ⟨-, -, -, -, -, -, -, -, -, -, -, -, -, -, -, hInv, -, -, -, -, -, -, -, -, -⟩ :=
    C9_contract_faults { valid := 0, fileName := none } (fun _ => none) none
      [] none [] 5 0 none 0 (-1) []
  obtain ⟨-, -, -, -, -, -, -, -, -, -, -, -, -, -, -, -, -, hBsz, -, -, -, hIdx, -, -, -⟩ :=
    C9_contract_faults { valid := INICONFIGFILE_VALID, fileName := some [] }
      (fun _ => none) none [] (some []) [] 5 0 none 0 (-1) []
  exact ⟨(hInv (by norm_num [INICONFIGFILE_VALID])).2.1, hBsz (by norm_num),
    hIdx (by norm_num)⟩

theorem dblCex_eq : dblCex = 1 + 1 / 2 ^ 23 := by
  rw [dblCex, Rat.mk'_eq_divInt, Rat.divInt_eq_div]
  norm_num

theorem dblCex2_eq : dblCex2 = 2 + 1 / 2 ^ 22 := by
  rw [dblCex2, Rat.mk'_eq_divInt, Rat.divInt_eq_div]
  norm_num

theorem log10_8388609 : Nat.log 10 8388609 = 6 :=
  Nat.log_eq_of_pow_le_of_lt_pow (by norm_num) (by norm_num)

theorem log10_8388608 : Nat.log 10 8388608 = 6 :=
  Nat.log_eq_of_pow_le_of_lt_pow (by norm_num) (by norm_num)

theorem log10_4194304 : Nat.log 10 4194304 = 6 :=
  Nat.log_eq_of_pow_le_of_lt_pow (by norm_num) (by norm_num)

theorem findExp_dblCex : findExp dblCex = 0 := by
  have hnum : dblCex.num.natAbs = 8388609 := rfl
  have hden : dblCex.den = 8388608 := rfl
  rw [findExp, hnum, hden, log10_8388609, log10_8388608]
  rw [if_neg (by rw [dblCex_eq]; norm_num), if_pos (by rw [dblCex_eq]; norm_num)]
  norm_num

theorem findExp_dblCex2 : findExp dblCex2 = 0 := by
  have hnum : dblCex2.num.natAbs = 8388609 := rfl
  have hden : dblCex2.den = 4194304 := rfl
  rw [findExp, hnum, hden, log10_8388609, log10_4194304]
  rw [if_neg (by rw [dblCex2_eq]; norm_num), if_pos (by rw [dblCex2_eq]; norm_num)]
  norm_num

theorem roundQ_dblCex : roundQ (dblCex * 10 ^ ((6 : ℤ) - 0)) = 1000000 := by
  rw [roundQ, dblCex_eq, Int.floor_eq_iff]
  norm_num

theorem roundQ_dblCex2 : roundQ (dblCex2 * 10 ^ ((6 : ℤ) - 0)) = 2000000 := by
  rw [roundQ, dblCex2_eq, Int.floor_eq_iff]
  norm_num

theorem dblCex_nonneg : 0 ≤ dblCex := by rw [dblCex_eq]; norm_num

theorem dblCex2_nonneg : 0 ≤ dblCex2 := by rw [dblCex2_eq]; norm_num

theorem formatE6_dblCex : formatE6 dblCex = eStr1 := by
  have h0 : dblCex ≠ 0 := by rw [dblCex_eq]; norm_num
  have hneg : ¬ dblCex < 0 := not_lt.mpr dblCex_nonneg
  have habs : |dblCex| = dblCex := abs_of_nonneg dblCex_nonneg
  rw [formatE6, if_neg h0]
  simp only [habs, findExp_dblCex, roundQ_dblCex, if_neg hneg]
  decide

theorem formatE6_dblCex2 : formatE6 dblCex2 = eStr2 := by
  have h0 : dblCex2 ≠ 0 := by rw [dblCex2_eq]; norm_num
  have hneg : ¬ dblCex2 < 0 := not_lt.mpr dblCex2_nonneg
  have habs : |dblCex2| = dblCex2 := abs_of_nonneg dblCex2_nonneg
  rw [formatE6, if_neg h0]
  simp only [habs, findExp_dblCex2, roundQ_dblCex2, if_neg hneg]
  decide

theorem strtod_eStr1 : strtod eStr1 = 1 := by
  have hp : strtodParts eStr1 = (false, 1, 0, 6, 0) := by decide
  simp only [strtod, hp]
  norm_num

theorem strtod_eStr2 : strtod eStr2 = 2 := by
  have hp : strtodParts eStr2 = (false, 2, 0, 6, 0) := by decide
  simp only [strtod, hp]
  norm_num

/-- C4 counterexample: `putDouble` formats with `"%e"`, whose default
precision is six fraction digits, so the write/read round-trip is NOT
lossless: writing the double `1 + 2⁻²³` (exactly representable in IEEE
binary64) stores `1.000000e+00` and reads back exactly `1`. -/
theorem C4_putDouble_precision_cex :
    CResult.map
        (fun r => IniConfigFile_getDouble
          (some { valid := INICONFIGFILE_VALID, fileName := some ['f'] })
          r.2 (some ['S']) ['k'] 0)
        (IniConfigFile_putDouble
          (some { valid := INICONFIGFILE_VALID, fileName := some ['f'] })
          (fun _ => none) (some ['S']) ['k'] dblCex)
      = .ok (.ok 1) ∧ (1 : ℚ) ≠ dblCex ∧ dblCex = 1 + 1 / 2 ^ 23 := by
  refine ⟨?_, ?_, dblCex_eq⟩
  · have hput : ini_puts [] (some ['S']) (some ['k']) (some (eStr1.take 31)) =
        [['[', 'S', ']'], 'k' :: '=' :: eStr1] := by decide
    have hget : ini_gets [['[', 'S', ']'], 'k' :: '=' :: eStr1]
        (some ['S']) ['k'] [] 64 = (eStr1, 12) := by decide
    simp only [IniConfigFile_putDouble, IniConfigFile_putString,
      IniConfigFile_getDouble, formatE6_dblCex, CResult.map, fileOf,
      INICONFIGFILE_VALID]
    norm_num [fsSet, hput, hget, strtod_eStr1]
  · rw [dblCex_eq]; norm_num

/-- C4 (amended): `putDouble` formats the value with C `"%e"` — a fixed
scientific-notation form with exactly six fraction digits (hence lossy
beyond seven significant digits) — and delegates to the string write;
`putLong` formats in plain base-10 and delegates to the engine's string
write. -/
theorem C4_put_formatting (self : Option IniConfigFile) (fs : FS)
    (sect : Option Str) (key : Str) (q : ℚ) (v : ℤ) :
    (IniConfigFile_putDouble self fs sect key q =
        IniConfigFile_putString self fs sect key (some ((formatE6 q).take 31))) ∧
    (∃ sgn d fr ex, formatE6 q = sgn ++ d :: '.' :: (fr ++ 'e' :: ex) ∧
        fr.length = 6 ∧ (sgn = [] ∨ sgn = ['-'])) ∧
    (IniConfigFile_putLong self fs sect key v =
        IniConfigFile_putString self fs sect key (some (intToStr v))) := by
  refine ⟨?_, ?_, ?_⟩
  · cases self with
    | none => rfl
    | some h =>
      by_cases hv : h.valid ≠ INICONFIGFILE_VALID
      · simp [IniConfigFile_putDouble, IniConfigFile_putString, hv]
      · cases hf : h.fileName with
        | none => simp [IniConfigFile_putDouble, IniConfigFile_putString, hv, hf]
        | some fn => simp [IniConfigFile_putDouble, hv, hf]
  · by_cases h0 : q = 0
    · subst h0
      exact ⟨[], '0', frac6 0, ['+', '0', '0'], rfl, rfl, Or.inl rfl⟩
    · simp only [formatE6, if_neg h0]
      refine ⟨(if q < 0 then ['-'] else []), _, _, _, rfl, rfl, ?_⟩
      by_cases hq : q < 0 <;> simp [hq]
  · cases self with
    | none => rfl
    | some h =>
      by_cases hv : h.valid ≠ INICONFIGFILE_VALID
      · simp [IniConfigFile_putLong, IniConfigFile_putString, hv]
      · cases hf : h.fileName with
        | none => simp [IniConfigFile_putLong, IniConfigFile_putString, hv, hf]
        | some fn =>
          simp [IniConfigFile_putLong, IniConfigFile_putString, hv, hf, ini_putl]

/-! ## Deleting an absent key is a no-op -/

theorem removeGo_of_not_found (target : Option Str) (key : Str) :
    ∀ (lines : List Str) (inSec : Bool),
      findRawGo target key lines inSec = none →
      removeGo target key lines inSec = lines := by
  intro lines
  induction lines with
  | nil => intro inSec _; rfl
  | cons l ls ih =>
    intro inSec hnf
    rw [findRawGo] at hnf
    rw [removeGo]
    cases hh : headerName l with
    | some h =>
      simp only [hh] at hnf ⊢
      rw [ih _ hnf]
    | none =>
      simp only [hh] at hnf ⊢
      by_cases hin : inSec = true
      · simp only [hin, if_true] at hnf ⊢
        cases hp : parseKV l with
        | some kv =>
          obtain ⟨k1, r1⟩ := kv
          simp only [hp] at hnf ⊢
          by_cases hk : keyEq k1 key = true
          · rw [if_pos hk] at hnf
            exact absurd hnf (by simp)
          · rw [if_neg hk] at hnf
            rw [if_neg hk, ih _ hnf]
        | none =>
          simp only [hp] at hnf ⊢
          rw [ih _ hnf]
      · simp only [Bool.not_eq_true] at hin
        simp only [hin, Bool.false_eq_true, if_false] at hnf ⊢
        rw [ih _ hnf]

/-- C7: `removeKey` is exactly `putString` with a null value, status
discarded; deleting a key that is absent leaves the file content
unchanged, and doing it twice leaves the file byte-identical to its
content before either call. -/
theorem C7_removeKey (self : Option IniConfigFile) (fs : FS)
    (sect : Option Str) (okey : Option Str) (lines : List Str) (k : Str)
    (habsent : findValue lines sect k = none) :
    (IniConfigFile_removeKey self fs sect okey =
        (IniConfigFile_putString self fs sect okey none).map (fun r => r.2)) ∧
    ini_puts lines sect (some k) none = lines ∧
    ini_puts (ini_puts lines sect (some k) none) sect (some k) none = lines := by
  have hraw : findRawGo sect k lines (initSec sect) = none := by
    rw [findValue, findRaw] at habsent
    exact Option.map_eq_none'.mp habsent
  have hnoop : ini_puts lines sect (some k) none = lines := by
    rw [ini_puts]
    exact removeGo_of_not_found sect k lines (initSec sect) hraw
  refine ⟨rfl, hnoop, ?_⟩
  rw [hnoop, hnoop]

/-- Witness for C7: deleting the absent key `y` of section `A` twice in a
concrete two-line file leaves the content identical. -/
theorem C7_removeKey_witness :
    IniConfigFile_removeKey none (fun _ => none) (some ['A']) (some ['y']) =
        (IniConfigFile_putString none (fun _ => none) (some ['A']) (some ['y'])
          none).map (fun r => r.2) ∧
      ini_puts [['[', 'A', ']'], ['x', '=', '1']] (some ['A']) (some ['y']) none =
        [['[', 'A', ']'], ['x', '=', '1']] ∧
      ini_puts (ini_puts [['[', 'A', ']'], ['x', '=', '1']] (some ['A'])
            (some ['y']) none) (some ['A']) (some ['y']) none =
        [['[', 'A', ']'], ['x', '=', '1']] :=
  C7_removeKey none (fun _ => none) (some ['A']) (some ['y'])
    [['[', 'A', ']'], ['x', '=', '1']] ['y'] (by decide)

/-! ## The staged write touches only the temporary file -/

theorem writeLinesGo_other (tmp : Str) :
    ∀ (ls : List Str) (i : ℕ) (fa : Option ℕ) (fs : FS) (m : Str), m ≠ tmp →
      (writeLinesGo tmp ls i fa fs).2 m = fs m := by
  intro ls
  induction ls with
  | nil => intro i fa fs m _; rfl
  | cons l ls ih =>
    intro i fa fs m hm
    rw [writeLinesGo]
    by_cases hf : fa = some i
    · rw [if_pos hf]
    · rw [if_neg hf, ih _ _ _ _ hm]
      simp [fsSet, hm]

theorem writeLinesGo_at_tmp (tmp : Str) :
    ∀ (ls : List Str) (i : ℕ) (fa : Option ℕ) (fs : FS) (cur : List Str),
      fs tmp = some cur →
      (writeLinesGo tmp ls i fa fs).1 = true →
      (writeLinesGo tmp ls i fa fs).2 tmp = some (cur ++ ls) := by
  intro ls
  induction ls with
  | nil => intro i fa fs cur hc _; simpa [writeLinesGo] using hc
  | cons l ls ih =>
    intro i fa fs cur hc hs
    rw [writeLinesGo] at hs ⊢
    by_cases hf : fa = some i
    · rw [if_pos hf] at hs
      exact absurd hs (by simp)
    · rw [if_neg hf] at hs ⊢
      have hc' : fsSet fs tmp ((fs tmp).getD [] ++ [l]) tmp = some (cur ++ [l]) := by
        simp [fsSet, hc]
      rw [ih (i + 1) fa _ _ hc' hs]
      simp

/-- C2: every write or delete stages its result in a temporary file whose
name starts with the reserved marker `~`; the rename over the original is
the sole commit point — on success the original's content becomes exactly
the rewritten content, on any injected I/O failure during the copy the
operation reports failure and the original's content is byte-for-byte
unchanged; the temporary file is gone in either outcome. -/
theorem C2_write_atomicity (fs : FS) (path : Str) (sect : Option Str)
    (key value : Option Str) (failAt : Option ℕ) :
    (tmpName path).head? = some '~' ∧
    tmpName path ≠ path ∧
    ((ini_putsFS fs path sect key value failAt).1 = false →
      (ini_putsFS fs path sect key value failAt).2 path = fs path) ∧
    ((ini_putsFS fs path sect key value failAt).1 = true →
      (ini_putsFS fs path sect key value failAt).2 path =
        some (ini_puts ((fs path).getD []) sect key value)) ∧
    (ini_putsFS fs path sect key value failAt).2 (tmpName path) = none := by
  have hne : path ≠ tmpName path := by
    intro h
    have hlen := congrArg List.length h
    simp [tmpName] at hlen
  cases hb : (writeLinesGo (tmpName path)
      (ini_puts ((fs path).getD []) sect key value) 0 failAt
      (fsSet fs (tmpName path) [])).1 with
  | true =>
    refine ⟨rfl, fun h => hne h.symm, ?_, ?_, ?_⟩
    · intro hfalse
      rw [ini_putsFS, runWrite] at hfalse
      simp only [hb, if_true] at hfalse
      exact absurd hfalse (by decide)
    · intro _
      rw [ini_putsFS, runWrite]
      simp only [hb, if_true]
      have htmp : (fsSet fs (tmpName path) []) (tmpName path) = some [] := by
        simp [fsSet]
      rw [writeLinesGo_at_tmp _ _ 0 failAt _ [] htmp hb]
      simp [fsRemove, fsSet, hne]
    · rw [ini_putsFS, runWrite]
      simp only [hb, if_true]
      simp [fsRemove]
  | false =>
    refine ⟨rfl, fun h => hne h.symm, ?_, ?_, ?_⟩
    · intro _
      rw [ini_putsFS, runWrite]
      simp only [hb, Bool.false_eq_true, if_false, fsRemove]
      simp only [if_neg hne]
      rw [writeLinesGo_other _ _ 0 failAt _ path hne]
      simp [fsSet, hne]
    · intro htrue
      rw [ini_putsFS, runWrite] at htrue
      simp only [hb, Bool.false_eq_true, if_false] at htrue
    · rw [ini_putsFS, runWrite]
      simp only [hb, Bool.false_eq_true, if_false]
      simp [fsRemove]

/-- Witness for C2: a failure injected at the first staged line of a write
to a one-line file leaves the original content in place and reports
failure, while the same write without failure commits the new content. -/
theorem C2_write_atomicity_witness :
    (ini_putsFS (fun n => if n = ['f'] then some [['a', '=', '1']] else none)
          ['f'] none (some ['a']) (some ['2']) (some 0)).1 = false →
      (ini_putsFS (fun n => if n = ['f'] then some [['a', '=', '1']] else none)
          ['f'] none (some ['a']) (some ['2']) (some 0)).2 ['f'] =
        some [['a', '=', '1']] := by
  have H := C2_write_atomicity
    (fun n => if n = ['f'] then some [['a', '=', '1']] else none)
    ['f'] none (some ['a']) (some ['2']) (some 0)
  intro hfail
  simpa using H.2.2.1 hfail

/-! ## Enumeration: positional scan versus the list of names -/

theorem getsectionGo_eq (lines : List Str) :
    ∀ idx, getsectionGo lines idx = (sectionList lines)[idx]? := by
  induction lines with
  | nil => intro idx; simp [getsectionGo, sectionList]
  | cons l ls ih =>
    intro idx
    rw [getsectionGo, sectionList, List.filterMap_cons]
    cases hh : headerName l with
    | some h =>
      simp only [hh]
      cases idx with
      | zero => simp
      | succ n => simp [ih n, sectionList]
    | none => simp [hh, ih idx, sectionList]

theorem getkeyGo_eq (target : Option Str) :
    ∀ (lines : List Str) (inSec : Bool) (idx : ℕ),
      getkeyGo target lines inSec idx = (keyListGo target lines inSec)[idx]? := by
  intro lines
  induction lines with
  | nil => intro inSec idx; simp [getkeyGo, keyListGo]
  | cons l ls ih =>
    intro inSec idx
    rw [getkeyGo, keyListGo]
    cases hh : headerName l with
    | some h =>
      simp only [hh]
      exact ih _ idx
    | none =>
      simp only [hh]
      by_cases hin : inSec = true
      · simp only [hin, if_true]
        cases hp : parseKV l with
        | some kv =>
          obtain ⟨k1, r1⟩ := kv
          simp only [hp]
          cases idx with
          | zero => simp
          | succ n => simp [ih _ n]
        | none =>
          simp only [hp]
          exact ih _ idx
      · simp only [Bool.not_eq_true] at hin
        simp only [hin, Bool.false_eq_true, if_false]
        exact ih _ idx

/-- C8: enumeration completeness and ordering — for a valid handle,
`getSection` at index `i` returns the `i`-th section header name in
top-to-bottom file order (truncated to the buffer, with its length), and
an index at or beyond the section count yields the empty result with
length 0, a normal termination signal (the call still returns `ok`);
the analogous positional contract holds for `getKey` over the keys of the
target section (the pre-header region when the section is null). -/
theorem C8_enumeration (h : IniConfigFile) (fs : FS) (fn : Str)
    (sect : Option Str) (idx bsz : ℤ) (lines : List Str)
    (hval : h.valid = INICONFIGFILE_VALID) (hfn : h.fileName = some fn)
    (hlines : (fs fn).getD [] = lines) (hidx : 0 ≤ idx) (hbsz : 0 < bsz) :
    (IniConfigFile_getSection (some h) fs idx true bsz =
      .ok (match (sectionList lines)[idx.toNat]? with
           | some name =>
             (name.take (bsz.toNat - 1), (name.take (bsz.toNat - 1)).length)
           | none => ([], 0))) ∧
    ((sectionList lines).length ≤ idx.toNat →
      IniConfigFile_getSection (some h) fs idx true bsz = .ok ([], 0)) ∧
    (IniConfigFile_getKey (some h) fs sect idx true bsz =
      .ok (match (keyList lines sect)[idx.toNat]? with
           | some name =>
             (name.take (bsz.toNat - 1), (name.take (bsz.toNat - 1)).length)
           | none => ([], 0))) ∧
    ((keyList lines sect).length ≤ idx.toNat →
      IniConfigFile_getKey (some h) fs sect idx true bsz = .ok ([], 0)) := by
  have hsec : IniConfigFile_getSection (some h) fs idx true bsz =
      .ok (ini_getsection lines idx.toNat bsz.toNat) := by
    rw [IniConfigFile_getSection]
    simp [hval, hfn, not_lt.mpr hbsz.le, hbsz, hidx, fileOf, hlines]
  have hkey : IniConfigFile_getKey (some h) fs sect idx true bsz =
      .ok (ini_getkey lines sect idx.toNat bsz.toNat) := by
    rw [IniConfigFile_getKey]
    simp [hval, hfn, hbsz, hidx, hlines]
  refine ⟨?_, ?_, ?_, ?_⟩
  · rw [hsec, ini_getsection, getsectionGo_eq]
  · intro hlen
    rw [hsec, ini_getsection, getsectionGo_eq, List.getElem?_eq_none hlen]
  · rw [hkey, ini_getkey, getkeyGo_eq, keyList]
  · intro hlen
    rw [hkey, ini_getkey, getkeyGo_eq]
    rw [keyList] at hlen
    rw [List.getElem?_eq_none hlen]

/-- Witness for C8: in a file with sections `A`, `B`, `C` in that order
(and one key under `B`), index 1 enumerates `B`, index 3 is exhausted, and
key enumeration under `B` yields `x` at index 0. -/
theorem C8_enumeration_witness :
    IniConfigFile_getSection
        (some { valid := INICONFIGFILE_VALID, fileName := some ['f'] })
        (fun n => if n = ['f'] then
          some [['[', 'A', ']'], ['[', 'B', ']'], ['x', '=', '1'], ['[', 'C', ']']]
          else none) 1 true 64 = .ok (['B'], 1) ∧
      IniConfigFile_getSection
        (some { valid := INICONFIGFILE_VALID, fileName := some ['f'] })
        (fun n => if n = ['f'] then
          some [['[', 'A', ']'], ['[', 'B', ']'], ['x', '=', '1'], ['[', 'C', ']']]
          else none) 3 true 64 = .ok ([], 0) ∧
      IniConfigFile_getKey
        (some { valid := INICONFIGFILE_VALID, fileName := some ['f'] })
        (fun n => if n = ['f'] then
          some [['[', 'A', ']'], ['[', 'B', ']'], ['x', '=', '1'], ['[', 'C', ']']]
          else none) (some ['B']) 0 true 64 = .ok (['x'], 1) := by
  have H1 := C8_enumeration { valid := INICONFIGFILE_VALID, fileName := some ['f'] }
    (fun n => if n = ['f'] then
      some [['[', 'A', ']'], ['[', 'B', ']'], ['x', '=', '1'], ['[', 'C', ']']]
      else none) ['f'] (some ['B']) 1 64
    [['[', 'A', ']'], ['[', 'B', ']'], ['x', '=', '1'], ['[', 'C', ']']]
    rfl rfl (by decide) (by decide) (by decide)
  have H3 := C8_enumeration { valid := INICONFIGFILE_VALID, fileName := some ['f'] }
    (fun n => if n = ['f'] then
      some [['[', 'A', ']'], ['[', 'B', ']'], ['x', '=', '1'], ['[', 'C', ']']]
      else none) ['f'] (some ['B']) 3 64
    [['[', 'A', ']'], ['[', 'B', ']'], ['x', '=', '1'], ['[', 'C', ']']]
    rfl rfl (by decide) (by decide) (by decide)
  have H0 := C8_enumeration { valid := INICONFIGFILE_VALID, fileName := some ['f'] }
    (fun n => if n = ['f'] then
      some [['[', 'A', ']'], ['[', 'B', ']'], ['x', '=', '1'], ['[', 'C', ']']]
      else none) ['f'] (some ['B']) 0 64
    [['[', 'A', ']'], ['[', 'B', ']'], ['x', '=', '1'], ['[', 'C', ']']]
    rfl rfl (by decide) (by decide) (by decide)
  exact ⟨H1.1.trans (by decide), H3.2.1 (by decide), (H0.2.2.1).trans (by decide)⟩

/-! ## Lenient numeric parsing -/

theorem isDigit_not_ws (c : Char) (h : c.isDigit = true) : isWS c = false := by
  cases hws : isWS c with
  | false => rfl
  | true =>
    exfalso
    rw [isWS] at hws
    simp only [Bool.or_eq_true, decide_eq_true_eq] at hws
    rcases hws with ((h1 | h1) | h1) | h1 <;> subst h1 <;> exact absurd h (by decide)

theorem isDigit_ne_sign (c : Char) (h : c.isDigit = true) :
    c ≠ '-' ∧ c ≠ '+' := by
  constructor <;> intro h1 <;> subst h1 <;> exact absurd h (by decide)

theorem takeWhile_digits_append (ds junk : Str)
    (hds : ∀ c ∈ ds, c.isDigit = true)
    (hj : ∀ c, junk.head? = some c → c.isDigit = false) :
    (ds ++ junk).takeWhile Char.isDigit = ds := by
  induction ds with
  | nil =>
    cases junk with
    | nil => rfl
    | cons j js =>
      simp only [List.nil_append]
      have : j.isDigit = false := hj j rfl
      rw [List.takeWhile_cons_of_neg (by simp [this])]
  | cons d ds ih =>
    have hd : d.isDigit = true := hds d (List.mem_cons_self d ds)
    rw [List.cons_append, List.takeWhile_cons_of_pos hd,
      ih (fun c hc => hds c (List.mem_cons_of_mem d hc))]

theorem strtol10_digits_junk (ds junk : Str) (hne : ds ≠ [])
    (hds : ∀ c ∈ ds, c.isDigit = true)
    (hj : ∀ c, junk.head? = some c → c.isDigit = false) :
    strtol10 (ds ++ junk) = (digitsToNat ds : ℤ) := by
  obtain ⟨d, ds', rfl⟩ := List.exists_cons_of_ne_nil hne
  have hd : d.isDigit = true := hds d (List.mem_cons_self d ds')
  have hdrop : ((d :: ds') ++ junk).dropWhile isWS = (d :: ds') ++ junk := by
    rw [List.cons_append, List.dropWhile_cons_of_neg (by simp [isDigit_not_ws d hd])]
  rw [strtol10]
  simp only [hdrop]
  have hhead : ((d :: ds') ++ junk).head? = some d := rfl
  rw [hhead]
  have hsign := isDigit_ne_sign d hd
  rw [if_neg (by simpa using hsign.1), if_neg (by simpa using hsign.2)]
  rw [digitsToNat, digitsToNat, takeWhile_digits_append _ _ hds hj,
    List.takeWhile_eq_self_iff.mpr hds]

/-- C6: `getLong` and `getDouble` delegate to a 64-byte bounded string
read; a zero-length read (key absent) returns the caller's default with no
numeric parse, a present non-empty value is parsed leniently from its
first 63 characters — base-10 digits up to the first non-digit for the
long read (trailing junk ignored), decimal/scientific prefix for the
double read. -/
theorem C6_numeric_reads (h : IniConfigFile) (fs : FS) (sect : Option Str)
    (key : Str) (dl : ℤ) (dq : ℚ) (lines : List Str) (v ds junk : Str)
    (hval : h.valid = INICONFIGFILE_VALID)
    (hlines : fileOf fs h.fileName = lines) :
    (findValue lines sect key = none →
      IniConfigFile_getLong (some h) fs sect key dl = .ok dl ∧
      IniConfigFile_getDouble (some h) fs sect key dq = .ok dq) ∧
    (findValue lines sect key = some v → v ≠ [] →
      IniConfigFile_getLong (some h) fs sect key dl = .ok (strtol10 (v.take 63)) ∧
      IniConfigFile_getDouble (some h) fs sect key dq = .ok (strtod (v.take 63))) ∧
    (ds ≠ [] → (∀ c ∈ ds, c.isDigit = true) →
      (∀ c, junk.head? = some c → c.isDigit = false) →
      strtol10 (ds ++ junk) = (digitsToNat ds : ℤ)) ∧
    strtod ['3', '.', '1', '4', 'a', 'b', 'c'] = 157 / 50 := by
  have hgl : IniConfigFile_getLong (some h) fs sect key dl =
      .ok (ini_getl lines sect key dl) := by
    rw [IniConfigFile_getLong]
    simp [hval, hlines]
  have hgd : IniConfigFile_getDouble (some h) fs sect key dq =
      .ok (if (ini_gets lines sect key [] 64).2 = 0 then dq
           else strtod (ini_gets lines sect key [] 64).1) := by
    rw [IniConfigFile_getDouble]
    simp [hval, hlines]
  refine ⟨?_, ?_, ?_, ?_⟩
  · intro hnone
    constructor
    · rw [hgl, ini_getl]
      simp [ini_gets, hnone]
    · rw [hgd]
      simp [ini_gets, hnone]
  · intro hsome hne
    have htk : v.take 63 ≠ [] := by
      simp only [ne_eq, List.take_eq_nil_iff]
      simp [hne]
    have hlen : ¬ ((v.take 63).length = 0) := by
      simpa [List.length_eq_zero] using htk
    constructor
    · rw [hgl, ini_getl]
      simp only [ini_gets, hsome]
      rw [if_neg hlen]
    · rw [hgd]
      simp only [ini_gets, hsome]
      rw [if_neg hlen]
  · exact fun hne hds hj => strtol10_digits_junk ds junk hne hds hj
  · have hp : strtodParts ['3', '.', '1', '4', 'a', 'b', 'c'] =
        (false, 3, 14, 2, 0) := by decide
    simp only [strtod, hp]
    norm_num

/-- Witness for C6: in a file `[E] o=42`, `getLong` with default `-1`
returns 42, and the lenient long parse of `42xy` yields 42. -/
theorem C6_numeric_reads_witness :
    IniConfigFile_getLong
        (some { valid := INICONFIGFILE_VALID, fileName := some ['f'] })
        (fun n => if n = ['f'] then
          some [['[', 'E', ']'], ['o', '=', '4', '2']] else none)
        (some ['E']) ['o'] (-1) = .ok 42 ∧
      strtol10 (['4', '2'] ++ ['x', 'y']) = 42 := by
  have H := C6_numeric_reads
    { valid := INICONFIGFILE_VALID, fileName := some ['f'] }
    (fun n => if n = ['f'] then
      some [['[', 'E', ']'], ['o', '=', '4', '2']] else none)
    (some ['E']) ['o'] (-1) 0 [['[', 'E', ']'], ['o', '=', '4', '2']]
    ['4', '2'] ['4', '2'] ['x', 'y'] rfl (by decide)
  refine ⟨?_, ?_⟩
  · exact ((H.2.1 (by decide) (by decide)).1).trans (by decide)
  · exact (H.2.2.1 (by decide) (by decide) (by decide)).trans (by decide)

set_option maxRecDepth 8192 in
/-- C10: `getInt` and `getDouble` read the stored value into a 64-byte
scratch buffer with the empty string as internal default, so (a) a key
stored with an empty value is indistinguishable from an absent key — both
return the caller's default — and (b) a stored value of 64 or more
characters is truncated to 63 characters before the numeric parse, which
can change the parsed number (a 64-digit run parses as its first 63
digits). -/
theorem C10_scratch_buffer (h : IniConfigFile) (fs : FS) (sect : Option Str)
    (key : Str) (di : ℤ) (dd : ℚ) (lines : List Str) (v : Str)
    (hval : h.valid = INICONFIGFILE_VALID)
    (hlines : fileOf fs h.fileName = lines) :
    (findValue lines sect key = none ∨ findValue lines sect key = some [] →
      IniConfigFile_getInt (some h) fs sect key di = .ok di ∧
      IniConfigFile_getDouble (some h) fs sect key dd = .ok dd) ∧
    (findValue lines sect key = some v →
      IniConfigFile_getInt (some h) fs sect key di =
        .ok (if (v.take 63).length = 0 then di else atoi (v.take 63))) ∧
    ini_gets [['k', '='] ++ List.replicate 64 '1'] none ['k'] [] 64 =
      (List.replicate 63 '1', 63) ∧
    atoi (List.replicate 63 '1') ≠ atoi (List.replicate 64 '1') := by
  have hgi : IniConfigFile_getInt (some h) fs sect key di =
      .ok (if (ini_gets lines sect key [] 64).2 = 0 then di
           else atoi (ini_gets lines sect key [] 64).1) := by
    rw [IniConfigFile_getInt]
    simp [hval, hlines]
  have hgd : IniConfigFile_getDouble (some h) fs sect key dd =
      .ok (if (ini_gets lines sect key [] 64).2 = 0 then dd
           else strtod (ini_gets lines sect key [] 64).1) := by
    rw [IniConfigFile_getDouble]
    simp [hval, hlines]
  refine ⟨?_, ?_, by decide, by decide⟩
  · rintro (hnone | hemp)
    · constructor
      · rw [hgi]; simp [ini_gets, hnone]
      · rw [hgd]; simp [ini_gets, hnone]
    · constructor
      · rw [hgi]; simp [ini_gets, hemp]
      · rw [hgd]; simp [ini_gets, hemp]
  · intro hsome
    rw [hgi]
    simp only [ini_gets, hsome]

/-- Witness for C10: a never-written key under an `getInt` read returns
the caller's default 7. -/
theorem C10_scratch_buffer_witness :
    IniConfigFile_getInt
        (some { valid := INICONFIGFILE_VALID, fileName := some ['f'] })
        (fun _ => none) none ['k'] 7 = .ok 7 := by
  have H := C10_scratch_buffer
    { valid := INICONFIGFILE_VALID, fileName := some ['f'] }
    (fun _ => none) none ['k'] 7 0 [] [] rfl (by decide)
  exact (H.1 (Or.inl (by decide))).1

/-! ## Trimming and quoting lemmas -/

theorem trimL_eq_self (s : Str) (h : ∀ c, s.head? = some c → isWS c = false) :
    trimL s = s := by
  rw [trimL]
  cases s with
  | nil => rfl
  | cons a t => rw [List.dropWhile_cons_of_neg (by simp [h a rfl])]

theorem trimR_eq_self (s : Str) (h : ∀ c, s.getLast? = some c → isWS c = false) :
    trimR s = s := by
  rw [trimR]
  cases hr : s.reverse with
  | nil =>
    have : s = [] := by simpa using congrArg List.reverse hr
    simp [this]
  | cons a t =>
    have ha : s.getLast? = some a := by
      rw [← List.head?_reverse, hr]
      rfl
    rw [List.dropWhile_cons_of_neg (by simp [h a ha]), ← hr, List.reverse_reverse]

theorem trim_eq_self (s : Str)
    (h1 : ∀ c, s.head? = some c → isWS c = false)
    (h2 : ∀ c, s.getLast? = some c → isWS c = false) : trim s = s := by
  rw [trim, trimL_eq_self s h1, trimR_eq_self s h2]

theorem trimL_ws_append (pad s : Str) (hpad : ∀ c ∈ pad, isWS c = true)
    (hs : ∀ c, s.head? = some c → isWS c = false) :
    trimL (pad ++ s) = s := by
  induction pad with
  | nil => simpa using trimL_eq_self s hs
  | cons p ps ih =>
    rw [trimL, List.cons_append,
      List.dropWhile_cons_of_pos (by simp [hpad p (List.mem_cons_self p ps)])]
    rw [trimL] at ih
    exact ih (fun c hc => hpad c (List.mem_cons_of_mem p hc))

theorem cutHash_eq_self (s : Str) (h : '#' ∉ s) : cutHash s = s := by
  induction s with
  | nil => rfl
  | cons a t ih =>
    rw [cutHash, if_neg (by rintro rfl; exact h (List.mem_cons_self _ _)),
      ih (fun hm => h (List.mem_cons_of_mem _ hm))]

theorem unquote_cons (c : Char) (cs : Str) :
    unquote (c :: cs) =
      if c = '"' then []
      else if c = '\\' then
        match cs with
        | [] => [c]
        | d :: ds =>
          if d = '"' || d = '\\' then d :: unquote ds else c :: unquote (d :: ds)
      else c :: unquote cs := by
  cases cs <;> rfl

theorem unquote_no_special (w rest : Str) (h1 : '"' ∉ w) (h2 : '\\' ∉ w) :
    unquote (w ++ '"' :: rest) = w := by
  induction w with
  | nil => rw [List.nil_append, unquote_cons, if_pos rfl]
  | cons a t ih =>
    have ha1 : a ≠ '"' := fun hq => h1 (hq ▸ List.mem_cons_self _ _)
    have ha2 : a ≠ '\\' := fun hq => h2 (hq ▸ List.mem_cons_self _ _)
    rw [List.cons_append, unquote_cons, if_neg ha1, if_neg ha2,
      ih (fun hm => h1 (List.mem_cons_of_mem _ hm))
         (fun hm => h2 (List.mem_cons_of_mem _ hm))]

theorem unquote_escape (v rest : Str) : unquote (escape v ++ '"' :: rest) = v := by
  induction v with
  | nil => rw [escape, List.nil_append, unquote_cons, if_pos rfl]
  | cons a t ih =>
    rw [escape]
    by_cases ha : a = '"' ∨ a = '\\'
    · rw [if_pos (by simpa using ha), List.cons_append, List.cons_append,
        unquote_cons, if_neg (by decide), if_pos rfl]
      show (if a = '"' || a = '\\' then a :: unquote (escape t ++ '"' :: rest)
        else '\\' :: unquote (a :: (escape t ++ '"' :: rest))) = a :: t
      rw [if_pos (by simpa using ha), ih]
    · push_neg at ha
      rw [if_neg (by simpa using ha), List.cons_append, unquote_cons,
        if_neg ha.1, if_neg ha.2, ih]

theorem mem_of_getLast?_eq {w : Str} {c : Char} (hc : w.getLast? = some c) :
    c ∈ w := by
  obtain ⟨h, rfl⟩ := List.mem_getLast?_eq_getLast (Option.mem_def.mpr hc)
  exact List.getLast_mem h

theorem needsQuote_false_facts (a : Char) (t : Str)
    (hq : needsQuote (a :: t) = false) :
    isWS a = false ∧ (∀ c, (a :: t).getLast? = some c → isWS c = false) ∧
      '"' ∉ a :: t ∧ '#' ∉ a :: t := by
  cases hl : (a :: t).getLast? with
  | none => simp at hl
  | some b =>
    rw [needsQuote] at hq
    simp only [List.head?_cons, hl] at hq
    simp only [Bool.or_eq_false_iff] at hq
    obtain ⟨⟨⟨hwa, hwb⟩, hcq⟩, hch⟩ := hq
    refine ⟨hwa, ?_, ?_, ?_⟩
    · intro c hc
      rw [Option.some.injEq] at hc
      rw [← hc]
      exact hwb
    · simpa using hcq
    · simpa using hch

theorem extractValue_renderValue (v : Str) : extractValue (renderValue v) = v := by
  rw [renderValue]
  cases hq : needsQuote v with
  | true =>
    simp only [hq, if_true]
    have htrim : trim ('"' :: (escape v ++ ['"'])) = '"' :: (escape v ++ ['"']) := by
      apply trim_eq_self
      · intro c hc
        simp only [List.head?_cons, Option.some.injEq] at hc
        subst hc
        decide
      · intro c hc
        have hcc : ('"' :: (escape v ++ ['"'])).getLast? = some '"' := by
          rw [show ('"' :: (escape v ++ ['"'])) = ('"' :: escape v) ++ ['"'] by simp]
          exact List.getLast?_concat _
        rw [hcc] at hc
        cases hc
        decide
    rw [extractValue, htrim]
    show unquote (escape v ++ ['"']) = v
    exact unquote_escape v []
  | false =>
    simp only [hq, Bool.false_eq_true, if_false]
    cases v with
    | nil => rfl
    | cons a t =>
      obtain ⟨hwa, hwl, hnq, hnh⟩ := needsQuote_false_facts a t hq
      have htrim : trim (a :: t) = a :: t := by
        apply trim_eq_self
        · intro c hc
          simp only [List.head?_cons, Option.some.injEq] at hc
          subst hc
          exact hwa
        · exact hwl
      rw [extractValue, htrim]
      have hane : a ≠ '"' := fun hh => hnq (hh ▸ List.mem_cons_self _ _)
      show (if a = '"' then unquote t else trimR (cutHash (a :: t))) = a :: t
      rw [if_neg hane, cutHash_eq_self _ hnh, trimR_eq_self _ hwl]

/-- C3: `getString` postcondition — for a valid handle and buffer capacity
`bsz > 0`: a matching entry returns its raw stored value put through
`extractValue` (whitespace stripped, one quote layer removed), truncated to
at most `bsz - 1` characters, with the return value equal to the copied
length; an absent entry returns the supplied default truncated the same
way with length 0 (a normal return, not a fault); the copied string always
fits strictly inside the declared capacity (null terminator included); and
`extractValue` strips surrounding whitespace and exactly one layer of
surrounding double quotes. -/
theorem C3_getString_postcondition (h : IniConfigFile) (fs : FS) (fn : Str)
    (sect : Option Str) (key : Str) (d : Str) (bsz : ℤ) (lines : List Str)
    (raw w pad : Str)
    (hval : h.valid = INICONFIGFILE_VALID) (hfn : h.fileName = some fn)
    (hlines : (fs fn).getD [] = lines) (hbsz : 0 < bsz) :
    (findRaw lines sect key = some raw →
      IniConfigFile_getString (some h) fs sect (some key) d true bsz =
        .ok ((extractValue raw).take (bsz.toNat - 1),
             ((extractValue raw).take (bsz.toNat - 1)).length)) ∧
    (findRaw lines sect key = none →
      IniConfigFile_getString (some h) fs sect (some key) d true bsz =
        .ok (d.take (bsz.toNat - 1), 0)) ∧
    (∀ out len, IniConfigFile_getString (some h) fs sect (some key) d true bsz =
        .ok (out, len) → out.length < bsz.toNat) ∧
    ((∀ c ∈ pad, isWS c = true) → (∀ c ∈ w, isWS c = false) →
      '"' ∉ w → '\\' ∉ w → w ≠ [] →
      extractValue (pad ++ '"' :: (w ++ ['"'])) = w ∧
      ('#' ∉ w → extractValue (pad ++ w) = w)) := by
  have hgs : IniConfigFile_getString (some h) fs sect (some key) d true bsz =
      .ok (ini_gets lines sect key d bsz.toNat) := by
    rw [IniConfigFile_getString]
    simp [hval, hfn, hbsz, hlines]
  refine ⟨?_, ?_, ?_, ?_⟩
  · intro hraw
    rw [hgs, ini_gets]
    simp only [findValue, hraw, Option.map_some']
  · intro hnone
    rw [hgs, ini_gets]
    simp only [findValue, hnone, Option.map_none']
  · intro out len hok
    rw [hgs] at hok
    have hle : out.length ≤ bsz.toNat - 1 := by
      rw [ini_gets] at hok
      cases hfr : findRaw lines sect key with
      | some r =>
        simp only [findValue, hfr, Option.map_some', CResult.ok.injEq,
          Prod.mk.injEq] at hok
        rw [← hok.1]
        exact List.length_take_le _ _
      | none =>
        simp only [findValue, hfr, Option.map_none', CResult.ok.injEq,
          Prod.mk.injEq] at hok
        rw [← hok.1]
        exact List.length_take_le _ _
    omega
  · intro hpad hw hq hbs hne
    have hwhead : ∀ c, w.head? = some c → isWS c = false := by
      intro c hc
      exact hw c (by cases w with
        | nil => simp at hc
        | cons x xs =>
          simp only [List.head?_cons, Option.some.injEq] at hc
          subst hc
          exact List.mem_cons_self _ _)
    have hwlast : ∀ c, w.getLast? = some c → isWS c = false := by
      intro c hc
      exact hw c (mem_of_getLast?_eq hc)
    constructor
    · have htl : trimL (pad ++ '"' :: (w ++ ['"'])) = '"' :: (w ++ ['"']) := by
        apply trimL_ws_append _ _ hpad
        intro c hc
        simp only [List.head?_cons, Option.some.injEq] at hc
        subst hc
        decide
      have htr : trimR ('"' :: (w ++ ['"'])) = '"' :: (w ++ ['"']) := by
        apply trimR_eq_self
        intro c hc
        have hcc : ('"' :: (w ++ ['"'])).getLast? = some '"' := by
          rw [show ('"' :: (w ++ ['"'])) = ('"' :: w) ++ ['"'] by simp]
          exact List.getLast?_concat _
        rw [hcc] at hc
        cases hc
        decide
      rw [extractValue, trim, htl, htr]
      show unquote (w ++ ['"']) = w
      exact unquote_no_special w [] hq hbs
    · intro hnh
      obtain ⟨a, t, rfl⟩ := List.exists_cons_of_ne_nil hne
      have htl : trimL (pad ++ a :: t) = a :: t := by
        apply trimL_ws_append _ _ hpad
        intro c hc
        simp only [List.head?_cons, Option.some.injEq] at hc
        subst hc
        exact hw a (List.mem_cons_self _ _)
      have htr : trimR (a :: t) = a :: t := trimR_eq_self _ hwlast
      rw [extractValue, trim, htl, htr]
      have hane : a ≠ '"' := fun hh => hq (hh ▸ List.mem_cons_self _ _)
      show (if a = '"' then unquote t else trimR (cutHash (a :: t))) = a :: t
      rw [if_neg hane, cutHash_eq_self _ hnh, trimR_eq_self _ hwlast]

/-- Witness for C3: reading the quoted, whitespace-padded entry
`k= "  p "  ` of the global section with buffer capacity 64 returns the
value `  p ` (spaces kept, quotes stripped) with length 4. -/
theorem C3_getString_witness :
    IniConfigFile_getString
        (some { valid := INICONFIGFILE_VALID, fileName := some ['f'] })
        (fun n => if n = ['f'] then
          some [['k', '=', ' ', '"', ' ', ' ', 'p', ' ', '"', ' ']] else none)
        none (some ['k']) ['d'] true 64 =
      .ok ([' ', ' ', 'p', ' '], 4) := by
  have H := C3_getString_postcondition
    { valid := INICONFIGFILE_VALID, fileName := some ['f'] }
    (fun n => if n = ['f'] then
      some [['k', '=', ' ', '"', ' ', ' ', 'p', ' ', '"', ' ']] else none)
    ['f'] none ['k'] ['d'] 64
    [['k', '=', ' ', '"', ' ', ' ', 'p', ' ', '"', ' ']]
    [' ', '"', ' ', ' ', 'p', ' ', '"', ' '] [] []
    rfl rfl (by decide) (by decide)
  exact (H.1 (by decide)).trans (by decide)

/-! ## The written `key=value` line parses back -/

theorem renderValue_last_not_ws (v : Str) :
    ∀ c, (renderValue v).getLast? = some c → isWS c = false := by
  rw [renderValue]
  cases hq : needsQuote v with
  | true =>
    simp only [if_true]
    intro c hc
    have hcc : ('"' :: (escape v ++ ['"'])).getLast? = some '"' := by
      rw [show ('"' :: (escape v ++ ['"'])) = ('"' :: escape v) ++ ['"'] by simp]
      exact List.getLast?_concat _
    rw [hcc, Option.some.injEq] at hc
    rw [← hc]
    decide
  | false =>
    simp only [Bool.false_eq_true, if_false]
    intro c hc
    cases v with
    | nil => simp at hc
    | cons a t => exact (needsQuote_false_facts a t hq).2.1 c hc

theorem head_not_ws_of_trimL_eq (s : Str) (h : trimL s = s) :
    ∀ c, s.head? = some c → isWS c = false := by
  intro c hc
  cases s with
  | nil => simp at hc
  | cons a t =>
    rw [List.head?_cons, Option.some.injEq] at hc
    subst hc
    cases hws : isWS a with
    | false => rfl
    | true =>
      exfalso
      rw [trimL, List.dropWhile_cons_of_pos (by simp [hws])] at h
      have hlen := congrArg List.length h
      have hle := (List.dropWhile_sublist (l := t) isWS).length_le
      simp only [List.length_cons] at hlen
      omega

theorem trimL_of_trim_eq (s : Str) (h : trim s = s) : trimL s = s := by
  have h1 : (trimL s).length ≤ s.length :=
    (List.dropWhile_sublist (l := s) isWS).length_le
  have h2 : (trim s).length ≤ (trimL s).length := by
    rw [trim, trimR]
    simpa using (List.dropWhile_sublist (l := (trimL s).reverse) isWS).length_le
  have hlen : (trimL s).length = s.length := by
    rw [h] at h2
    omega
  have hsuf : trimL s <:+ s := List.dropWhile_suffix _
  exact List.IsSuffix.eq_of_length hsuf hlen

theorem trimR_of_trim_eq (s : Str) (h : trim s = s) : trimR s = s := by
  have htl := trimL_of_trim_eq s h
  rw [trim, htl] at h
  exact h

theorem newline_last (k rv : Str)
    (hrv : ∀ c, rv.getLast? = some c → isWS c = false) :
    ∀ c, (k ++ '=' :: rv).getLast? = some c → isWS c = false := by
  intro c hc
  rw [List.getLast?_append_cons] at hc
  cases rv with
  | nil =>
    simp only [List.getLast?_singleton, Option.some.injEq] at hc
    rw [← hc]
    decide
  | cons r rs =>
    rw [List.getLast?_cons_cons] at hc
    exact hrv c hc

theorem newline_trim (k rv : Str) (hk : GoodKey k)
    (hrv : ∀ c, rv.getLast? = some c → isWS c = false) :
    trim (k ++ '=' :: rv) = k ++ '=' :: rv := by
  apply trim_eq_self
  · intro c hc
    obtain ⟨a, kt, rfl⟩ := List.exists_cons_of_ne_nil hk.1
    rw [List.cons_append, List.head?_cons, Option.some.injEq] at hc
    subst hc
    exact head_not_ws_of_trimL_eq _ (trimL_of_trim_eq _ hk.2.1) a rfl
  · exact newline_last k rv hrv

theorem headerName_newline (k rv : Str) (hk : GoodKey k)
    (hrv : ∀ c, rv.getLast? = some c → isWS c = false) :
    headerName (k ++ '=' :: rv) = none := by
  rw [headerName, newline_trim k rv hk hrv]
  obtain ⟨a, kt, rfl⟩ := List.exists_cons_of_ne_nil hk.1
  have ha : a ≠ '[' := by
    intro hh
    exact hk.2.2.2.2.2.1 (by rw [hh]; rfl)
  rw [List.cons_append]
  show (if a = '[' then
      match (kt ++ '=' :: rv).reverse with
      | [] => none
      | d :: ds => if d = ']' then some ds.reverse else none
    else none) = none
  rw [if_neg ha]

theorem isComment_newline (k rv : Str) (hk : GoodKey k) :
    isComment (k ++ '=' :: rv) = false := by
  obtain ⟨a, kt, rfl⟩ := List.exists_cons_of_ne_nil hk.1
  have hws : isWS a = false :=
    head_not_ws_of_trimL_eq _ (trimL_of_trim_eq _ hk.2.1) a rfl
  have ha1 : a ≠ ';' := fun hh => hk.2.2.2.2.2.2.1 (by rw [hh]; rfl)
  have ha2 : a ≠ '#' := fun hh => hk.2.2.2.2.2.2.2 (by rw [hh]; rfl)
  rw [isComment, List.cons_append, trimL,
    List.dropWhile_cons_of_neg (by simp [hws])]
  simp [ha1, ha2]

theorem splitDelim_append (k rv : Str) (h1 : '=' ∉ k) (h2 : ':' ∉ k) :
    splitDelim (k ++ '=' :: rv) = some (k, rv) := by
  induction k with
  | nil => rw [List.nil_append, splitDelim, if_pos (by simp)]
  | cons a t ih =>
    have ha : ¬ (a = '=' || a = ':') = true := by
      simp only [Bool.or_eq_true, decide_eq_true_eq]
      rintro (rfl | rfl)
      · exact h1 (List.mem_cons_self _ _)
      · exact h2 (List.mem_cons_self _ _)
    rw [List.cons_append, splitDelim, if_neg ha,
      ih (fun hm => h1 (List.mem_cons_of_mem _ hm))
         (fun hm => h2 (List.mem_cons_of_mem _ hm)),
      Option.map_some']

theorem parseKV_newline (k rv : Str) (hk : GoodKey k)
    (hrv : ∀ c, rv.getLast? = some c → isWS c = false) :
    parseKV (k ++ '=' :: rv) = some (k, rv) := by
  rw [parseKV, if_neg (by
    simp [headerName_newline k rv hk hrv, isComment_newline k rv hk])]
  rw [splitDelim_append k rv hk.2.2.1 hk.2.2.2.1]
  simp only [hk.2.1]
  rw [if_neg hk.1]

theorem keyEq_refl (k : Str) : keyEq k k = true := by
  simp [keyEq]

theorem headerName_hdr (s : Str) : headerName ('[' :: (s ++ [']'])) = some s := by
  have htrim : trim ('[' :: (s ++ [']'])) = '[' :: (s ++ [']']) := by
    apply trim_eq_self
    · intro c hc
      rw [List.head?_cons, Option.some.injEq] at hc
      subst hc
      decide
    · intro c hc
      have hcc : ('[' :: (s ++ [']'])).getLast? = some ']' := by
        rw [show ('[' :: (s ++ [']'])) = ('[' :: s) ++ [']'] by simp]
        exact List.getLast?_concat _
      rw [hcc, Option.some.injEq] at hc
      rw [← hc]
      decide
  rw [headerName, htrim]
  show (if '[' = '[' then
      match (s ++ [']']).reverse with
      | [] => none
      | d :: ds => if d = ']' then some ds.reverse else none
    else none) = some s
  rw [if_pos rfl, show (s ++ [']']).reverse = ']' :: s.reverse by simp]
  show (if ']' = ']' then some s.reverse.reverse else none) = some s
  rw [if_pos rfl, List.reverse_reverse]

/-! ## The scan finds the inserted or replaced line first -/

theorem findRawGo_insertGo (target : Option Str) (key nl k0 rv0 : Str)
    (hh : headerName nl = none) (hp : parseKV nl = some (k0, rv0))
    (hkeq : keyEq k0 key = true) :
    ∀ (lines : List Str) (inSec : Bool),
      (target = none → inSec = true) →
      findRawGo target key lines inSec = none →
      findRawGo target key (insertGo target nl lines inSec) inSec = some rv0 := by
  intro lines
  induction lines with
  | nil =>
    intro inSec hg _
    by_cases hin : inSec = true
    · rw [insertGo]
      simp only [hin, if_true]
      simp [findRawGo, hh, hp, hkeq]
    · simp only [Bool.not_eq_true] at hin
      have hts : target ≠ none := by
        intro h0
        rw [hg h0] at hin
        cases hin
      obtain ⟨s, rfl⟩ : ∃ s, target = some s := by
        cases target with
        | none => exact absurd rfl hts
        | some s => exact ⟨s, rfl⟩
      rw [insertGo]
      simp only [hin, Bool.false_eq_true, if_false, headerFor]
      simp [findRawGo, headerName_hdr, hh, hp, hkeq, hin]
  | cons l ls ih =>
    intro inSec hg hnf
    rw [findRawGo] at hnf
    rw [insertGo]
    cases hhl : headerName l with
    | some h2 =>
      simp only [hhl] at hnf
      by_cases hin : inSec = true
      · simp only [hin, if_true]
        simp [findRawGo, hh, hp, hkeq]
      · simp only [Bool.not_eq_true] at hin
        simp only [hin, Bool.false_eq_true, if_false]
        rw [findRawGo]
        simp only [hhl]
        exact ih _ (fun h0 => absurd (hg h0) (by simp [hin])) hnf
    | none =>
      simp only [hhl] at hnf
      simp only [hhl]
      by_cases hin : inSec = true
      · simp only [hin, if_true] at hnf
        rw [findRawGo]
        simp only [hhl, hin, if_true]
        cases hpl : parseKV l with
        | some kv =>
          obtain ⟨k1, r1⟩ := kv
          simp only [hpl] at hnf ⊢
          by_cases hk1 : keyEq k1 key = true
          · rw [if_pos hk1] at hnf
            exact absurd hnf (by simp)
          · rw [if_neg hk1] at hnf
            rw [if_neg hk1]
            exact ih _ (fun _ => rfl) hnf
        | none =>
          simp only [hpl] at hnf ⊢
          exact ih _ (fun _ => rfl) hnf
      · simp only [Bool.not_eq_true] at hin
        simp only [hin, Bool.false_eq_true, if_false] at hnf
        rw [findRawGo]
        simp only [hhl, hin, Bool.false_eq_true, if_false]
        exact ih _ (fun h0 => absurd (hg h0) (by simp [hin])) hnf

theorem findRawGo_replaceGo (target : Option Str) (key nl k0 rv0 : Str)
    (hh : headerName nl = none) (hp : parseKV nl = some (k0, rv0))
    (hkeq : keyEq k0 key = true) :
    ∀ (lines : List Str) (inSec : Bool),
      (findRawGo target key lines inSec).isSome →
      findRawGo target key (replaceGo target key nl lines inSec) inSec = some rv0 := by
  intro lines
  induction lines with
  | nil =>
    intro inSec hf
    rw [findRawGo] at hf
    simp at hf
  | cons l ls ih =>
    intro inSec hf
    rw [findRawGo] at hf
    rw [replaceGo]
    cases hhl : headerName l with
    | some h2 =>
      simp only [hhl] at hf
      rw [findRawGo]
      simp only [hhl]
      exact ih _ hf
    | none =>
      simp only [hhl] at hf ⊢
      by_cases hin : inSec = true
      · simp only [hin, if_true] at hf ⊢
        cases hpl : parseKV l with
        | some kv =>
          obtain ⟨k1, r1⟩ := kv
          simp only [hpl] at hf ⊢
          by_cases hk1 : keyEq k1 key = true
          · rw [if_pos hk1]
            simp [findRawGo, hh, hp, hkeq]
          · rw [if_neg hk1] at hf
            rw [if_neg hk1, findRawGo]
            simp only [hhl, hin, if_true, hpl]
            rw [if_neg hk1]
            exact ih _ hf
        | none =>
          simp only [hpl] at hf ⊢
          rw [findRawGo]
          simp only [hhl, hin, if_true, hpl]
          exact ih _ hf
      · simp only [Bool.not_eq_true] at hin
        simp only [hin, Bool.false_eq_true, if_false] at hf ⊢
        rw [findRawGo]
        simp only [hhl, hin, Bool.false_eq_true, if_false]
        exact ih _ hf

/-- The heart of the round-trip: after a string write, the scan finds the
written value. -/
theorem ini_putsVal_roundtrip (lines : List Str) (target : Option Str)
    (k v : Str) (hk : GoodKey k) :
    findValue (ini_putsVal lines target k v) target k = some v := by
  have hrvlast := renderValue_last_not_ws v
  have hh := headerName_newline k (renderValue v) hk hrvlast
  have hp := parseKV_newline k (renderValue v) hk hrvlast
  simp only [ini_putsVal]
  by_cases hf : (findValue lines target k).isSome
  · rw [if_pos hf]
    rw [findValue, findRaw]
    rw [findRawGo_replaceGo target k _ k (renderValue v) hh hp (keyEq_refl k)
      lines (initSec target) ?hsome]
    · rw [Option.map_some', extractValue_renderValue]
    case hsome =>
      rcases hfr : findRawGo target k lines (initSec target) with _ | r
      · rw [findValue, findRaw, hfr] at hf
        simp at hf
      · simp
  · rw [if_neg hf]
    have hnone : findRawGo target k lines (initSec target) = none := by
      rcases hfr : findRawGo target k lines (initSec target) with _ | r
      · rfl
      · rw [findValue, findRaw, hfr] at hf
        simp at hf
    rw [findValue, findRaw]
    rw [findRawGo_insertGo target k _ k (renderValue v) hh hp (keyEq_refl k)
      lines (initSec target) (fun h0 => by simp [initSec, h0]) hnone]
    rw [Option.map_some', extractValue_renderValue]

/-- The generic write/read round-trip stated for `ini_puts`. -/
theorem findValue_after_put (lines : List Str) (target : Option Str)
    (k v : Str) (hk : GoodKey k) :
    findValue (ini_puts lines target (some k) (some v)) target k = some v :=
  ini_putsVal_roundtrip lines target k v hk

/-! ## Base-10 integer rendering parses back -/

theorem natToDigitsAux_all_digits :
    ∀ (fuel n : ℕ), ∀ c ∈ natToDigitsAux fuel n, c.isDigit = true := by
  intro fuel
  induction fuel with
  | zero => intro n c hc; simp [natToDigitsAux] at hc
  | succ f ih =>
    intro n c hc
    rw [natToDigitsAux] at hc
    by_cases hn : n = 0
    · rw [if_pos hn] at hc
      simp at hc
    · rw [if_neg hn] at hc
      rcases List.mem_append.mp hc with h1 | h2
      · exact ih _ c h1
      · have : c = dig n := by simpa using h2
        rw [this]
        exact dig_isDigit n

theorem natToDigitsAux_foldl :
    ∀ (fuel n a : ℕ), n ≤ fuel →
      (natToDigitsAux fuel n).foldl (fun x c => 10 * x + (c.toNat - 48)) a =
        a * 10 ^ (natToDigitsAux fuel n).length + n := by
  intro fuel
  induction fuel with
  | zero =>
    intro n a hle
    have hn : n = 0 := by omega
    subst hn
    simp [natToDigitsAux]
  | succ f ih =>
    intro n a hle
    rw [natToDigitsAux]
    by_cases hn : n = 0
    · rw [if_pos hn]
      simp [hn]
    · rw [if_neg hn]
      have hdiv : n / 10 < n := Nat.div_lt_self (by omega) (by norm_num)
      rw [List.foldl_append, ih (n / 10) a (by omega)]
      simp only [List.foldl_cons, List.foldl_nil]
      have hmod : (dig n).toNat - 48 = n % 10 := by
        rw [dig_toNat]
        omega
      rw [hmod, List.length_append]
      simp only [List.length_cons, List.length_nil]
      rw [pow_succ]
      have key : ∀ x : ℕ, 10 * (x + n / 10) + n % 10 = x * 10 + n := by
        intro x
        omega
      calc 10 * (a * 10 ^ (natToDigitsAux f (n / 10)).length + n / 10) + n % 10
          = (a * 10 ^ (natToDigitsAux f (n / 10)).length) * 10 + n := key _
        _ = a * (10 ^ (natToDigitsAux f (n / 10)).length * 10) + n := by ring

theorem takeWhile_eq_self_of_all {p : Char → Bool} (l : Str)
    (h : ∀ c ∈ l, p c = true) : l.takeWhile p = l := by
  induction l with
  | nil => rfl
  | cons a t ih =>
    rw [List.takeWhile_cons_of_pos (h a (List.mem_cons_self _ _)),
      ih (fun c hc => h c (List.mem_cons_of_mem _ hc))]

theorem digitsToNat_natToStr (n : ℕ) : digitsToNat (natToStr n) = n := by
  rw [digitsToNat, natToStr]
  by_cases hn : n = 0
  · rw [if_pos hn]
    subst hn
    decide
  · rw [if_neg hn,
      takeWhile_eq_self_of_all _ (natToDigitsAux_all_digits n n)]
    simpa using natToDigitsAux_foldl n n 0 (le_refl n)

theorem natToStr_ne_nil (n : ℕ) : natToStr n ≠ [] := by
  rw [natToStr]
  by_cases hn : n = 0
  · rw [if_pos hn]
    simp
  · rw [if_neg hn]
    obtain ⟨m, rfl⟩ : ∃ m, n = m + 1 := ⟨n - 1, by omega⟩
    rw [natToDigitsAux, if_neg hn]
    simp

theorem natToStr_all_digits (n : ℕ) : ∀ c ∈ natToStr n, c.isDigit = true := by
  rw [natToStr]
  by_cases hn : n = 0
  · rw [if_pos hn]
    intro c hc
    have : c = '0' := by simpa using hc
    rw [this]
    decide
  · rw [if_neg hn]
    exact natToDigitsAux_all_digits n n

theorem intToStr_ne_nil (v : ℤ) : intToStr v ≠ [] := by
  rw [intToStr]
  by_cases hv : v < 0
  · rw [if_pos hv]
    simp
  · rw [if_neg hv]
    exact natToStr_ne_nil _

theorem strtol10_intToStr (v : ℤ) : strtol10 (intToStr v) = v := by
  rw [intToStr]
  by_cases hv : v < 0
  · rw [if_pos hv]
    have hdrop : ('-' :: natToStr v.natAbs).dropWhile isWS =
        '-' :: natToStr v.natAbs := List.dropWhile_cons_of_neg (by decide)
    simp only [strtol10, hdrop, List.head?_cons, Option.some.injEq, if_pos rfl,
      List.tail_cons]
    rw [digitsToNat_natToStr, Int.ofNat_natAbs_of_nonpos (le_of_lt hv), neg_neg]
    simp
  · rw [if_neg hv]
    obtain ⟨c0, t0, hct⟩ := List.exists_cons_of_ne_nil (natToStr_ne_nil v.natAbs)
    have hd0 : c0.isDigit = true := by
      apply natToStr_all_digits v.natAbs
      rw [hct]
      exact List.mem_cons_self _ _
    have hdrop : (natToStr v.natAbs).dropWhile isWS = natToStr v.natAbs := by
      rw [hct]
      exact List.dropWhile_cons_of_neg (by simp [isDigit_not_ws c0 hd0])
    have hsign := isDigit_ne_sign c0 hd0
    have hhd : (natToStr v.natAbs).head? = some c0 := by
      rw [hct]
      rfl
    simp only [strtol10, hdrop, hhd, Option.some.injEq]
    rw [if_neg (by simpa using hsign.1), if_neg (by simpa using hsign.2),
      digitsToNat_natToStr]
    exact Int.natAbs_of_nonneg (not_lt.mp hv)

theorem natToDigitsAux_length :
    ∀ (fuel n k : ℕ), n ≤ fuel → n < 10 ^ k →
      (natToDigitsAux fuel n).length ≤ k := by
  intro fuel
  induction fuel with
  | zero =>
    intro n k h1 _
    have hn : n = 0 := by omega
    subst hn
    simp [natToDigitsAux]
  | succ f ih =>
    intro n k h1 h2
    rw [natToDigitsAux]
    by_cases hn : n = 0
    · rw [if_pos hn]
      simp
    · rw [if_neg hn]
      have hk : k ≠ 0 := by
        rintro rfl
        simp at h2
        omega
      obtain ⟨k', rfl⟩ : ∃ k', k = k' + 1 := ⟨k - 1, by omega⟩
      rw [List.length_append]
      have hdiv10 : n / 10 < 10 ^ k' := by
        rw [pow_succ] at h2
        omega
      have hdiv : n / 10 < n := Nat.div_lt_self (by omega) (by norm_num)
      have hrec := ih (n / 10) k' (by omega) hdiv10
      simp only [List.length_cons, List.length_nil]
      omega

theorem natToStr_length (n k : ℕ) (hk : 1 ≤ k) (h : n < 10 ^ k) :
    (natToStr n).length ≤ k := by
  rw [natToStr]
  by_cases hn : n = 0
  · rw [if_pos hn]
    simpa using hk
  · rw [if_neg hn]
    exact natToDigitsAux_length n n k (le_refl n) h

theorem intToStr_length (v : ℤ) (k : ℕ) (hk : 1 ≤ k) (h : v.natAbs < 10 ^ k) :
    (intToStr v).length ≤ k + 1 := by
  rw [intToStr]
  by_cases hv : v < 0
  · rw [if_pos hv]
    simp only [List.length_cons]
    have := natToStr_length v.natAbs k hk h
    omega
  · rw [if_neg hv]
    have := natToStr_length v.natAbs k hk h
    omega

/-! ## Read-after-write at the engine level -/

theorem ini_gets_after_put (lines : List Str) (target : Option Str)
    (k v d : Str) (bufSize : ℕ) (hk : GoodKey k)
    (hlen : v.length ≤ bufSize - 1) :
    ini_gets (ini_puts lines target (some k) (some v)) target k d bufSize =
      (v, v.length) := by
  rw [ini_gets, findValue_after_put lines target k v hk]
  simp only
  rw [List.take_of_length_le hlen]

theorem ini_getl_after_put (lines : List Str) (target : Option Str)
    (k : Str) (n dl : ℤ) (hk : GoodKey k)
    (hlen : (intToStr n).length ≤ 63) :
    ini_getl (ini_puts lines target (some k) (some (intToStr n))) target k dl
      = n := by
  simp only [ini_getl]
  rw [ini_gets_after_put lines target k (intToStr n) [] 64 hk hlen]
  rw [if_neg (by simpa [List.length_eq_zero] using intToStr_ne_nil n),
    strtol10_intToStr]

/-- C1 (amended): the write/read round-trip holds for strings (including
empty, whitespace-padded, quoted and numeric-looking values, with quoting
applied on write and stripped on read), for longs and for ints: writing a
value and reading the same `(section, key)` back with any default returns
exactly the written value (with the returned length for strings).  The
exact round-trip does NOT extend to doubles (see the counterexample). -/
theorem C1_roundtrip (h : IniConfigFile) (fs : FS) (fn : Str)
    (sect : Option Str) (k v d : Str) (bsz : ℤ) (nL nI dL dI : ℤ)
    (hval : h.valid = INICONFIGFILE_VALID) (hfn : h.fileName = some fn)
    (hk : GoodKey k) (hsec : GoodSec sect) (hv : GoodVal v)
    (hbsz : (v.length : ℤ) < bsz)
    (hnL : nL.natAbs < 2 ^ 63) (hnI : nI.natAbs < 2 ^ 31) :
    (∀ r, IniConfigFile_putString (some h) fs sect (some k) (some v) = .ok r →
      IniConfigFile_getString (some h) r.2 sect (some k) d true bsz =
        .ok (v, v.length)) ∧
    (∀ r, IniConfigFile_putLong (some h) fs sect k nL = .ok r →
      IniConfigFile_getLong (some h) r.2 sect k dL = .ok nL) ∧
    (∀ r, IniConfigFile_putInt (some h) fs sect k nI = .ok r →
      IniConfigFile_getInt (some h) r.2 sect k dI = .ok nI) := by
  have hbp : 0 < bsz := by omega
  refine ⟨?_, ?_, ?_⟩
  · intro r hr
    have hput : IniConfigFile_putString (some h) fs sect (some k) (some v) =
        .ok (1, fsSet fs fn (ini_puts ((fs fn).getD []) sect (some k) (some v))) := by
      rw [IniConfigFile_putString]
      simp [hval, hfn]
    rw [hput, CResult.ok.injEq] at hr
    have hr2 : r.2 =
        fsSet fs fn (ini_puts ((fs fn).getD []) sect (some k) (some v)) := by
      rw [← hr]
    have hgs : IniConfigFile_getString (some h) r.2 sect (some k) d true bsz =
        .ok (ini_gets (ini_puts ((fs fn).getD []) sect (some k) (some v))
          sect k d bsz.toNat) := by
      rw [IniConfigFile_getString]
      simp [hval, hfn, hbp, hr2, fsSet]
    rw [hgs, ini_gets_after_put _ _ _ _ _ _ hk (by omega)]
  · intro r hr
    have hput : IniConfigFile_putLong (some h) fs sect k nL =
        .ok (1, fsSet fs fn (ini_putl ((fs fn).getD []) sect k nL)) := by
      rw [IniConfigFile_putLong]
      simp [hval, hfn]
    rw [hput, CResult.ok.injEq] at hr
    have hr2 : r.2 = fsSet fs fn (ini_putl ((fs fn).getD []) sect k nL) := by
      rw [← hr]
    have hlen20 : (intToStr nL).length ≤ 20 := by
      have h19 : nL.natAbs < 10 ^ 19 := by
        have hpow : (2 : ℕ) ^ 63 ≤ 10 ^ 19 := by norm_num
        omega
      exact intToStr_length nL 19 (by norm_num) h19
    have hgl : IniConfigFile_getLong (some h) r.2 sect k dL =
        .ok (ini_getl (ini_puts ((fs fn).getD []) sect (some k)
          (some (intToStr nL))) sect k dL) := by
      rw [IniConfigFile_getLong]
      simp [hval, hfn, hr2, fileOf, fsSet, ini_putl]
    rw [hgl, ini_getl_after_put _ _ _ _ _ hk (by omega)]
  · intro r hr
    have hlen11 : (intToStr nI).length ≤ 11 := by
      have h10 : nI.natAbs < 10 ^ 10 := by
        have hpow : (2 : ℕ) ^ 31 ≤ 10 ^ 10 := by norm_num
        omega
      exact intToStr_length nI 10 (by norm_num) h10
    have htake : (intToStr nI).take 31 = intToStr nI :=
      List.take_of_length_le (by omega)
    have hput : IniConfigFile_putInt (some h) fs sect k nI =
        .ok (1, fsSet fs fn (ini_puts ((fs fn).getD []) sect (some k)
          (some (intToStr nI)))) := by
      rw [IniConfigFile_putInt, IniConfigFile_putString]
      simp [hval, hfn, htake]
    rw [hput, CResult.ok.injEq] at hr
    have hr2 : r.2 = fsSet fs fn (ini_puts ((fs fn).getD []) sect (some k)
        (some (intToStr nI))) := by
      rw [← hr]
    have hgi : IniConfigFile_getInt (some h) r.2 sect k dI =
        .ok (let g := ini_gets (ini_puts ((fs fn).getD []) sect (some k)
              (some (intToStr nI))) sect k [] 64;
            if g.2 = 0 then dI else atoi g.1) := by
      rw [IniConfigFile_getInt]
      simp [hval, hfn, hr2, fileOf, fsSet]
    rw [hgi]
    simp only
    rw [ini_gets_after_put _ _ _ _ _ _ hk (by omega)]
    simp only
    rw [if_neg (by simpa [List.length_eq_zero] using intToStr_ne_nil nI),
      atoi_eq_strtol10, strtol10_intToStr]

/-- Witness for C1: writing the string `42` to key `k` of the global
section of an empty file and reading it back with default `d` and a
64-byte buffer yields `42` with length 2. -/
theorem C1_roundtrip_witness :
    IniConfigFile_getString
        (some { valid := INICONFIGFILE_VALID, fileName := some ['f'] })
        (fsSet (fun _ => none) ['f']
          (ini_puts [] none (some ['k']) (some ['4', '2'])))
        none (some ['k']) ['d'] true 64 = .ok (['4', '2'], 2) := by
  have H := C1_roundtrip
    { valid := INICONFIGFILE_VALID, fileName := some ['f'] }
    (fun _ => none) ['f'] none ['k'] ['4', '2'] ['d'] 64 5 6 0 0
    rfl rfl (by unfold GoodKey; decide) trivial (by unfold GoodVal; decide)
    (by decide) (by decide) (by decide)
  exact H.1 _ rfl

/-- C1 counterexample: the round-trip does not hold for the double type —
writing the IEEE binary64 value `2 + 2⁻²²` with `putDouble` stores the
six-fraction-digit `%e` rendering `2.000000e+00`, and `getDouble` reads
back exactly `2`, not the written value. -/
theorem C1_double_roundtrip_cex :
    CResult.map
        (fun r => IniConfigFile_getDouble
          (some { valid := INICONFIGFILE_VALID, fileName := some ['f'] })
          r.2 (some ['S']) ['k'] 0)
        (IniConfigFile_putDouble
          (some { valid := INICONFIGFILE_VALID, fileName := some ['f'] })
          (fun _ => none) (some ['S']) ['k'] dblCex2)
      = .ok (.ok 2) ∧ (2 : ℚ) ≠ dblCex2 ∧ dblCex2 = 2 + 1 / 2 ^ 22 := by
  refine ⟨?_, ?_, dblCex2_eq⟩
  · have hput : ini_puts [] (some ['S']) (some ['k']) (some (eStr2.take 31)) =
        [['[', 'S', ']'], 'k' :: '=' :: eStr2] := by decide
    have hget : ini_gets [['[', 'S', ']'], 'k' :: '=' :: eStr2]
        (some ['S']) ['k'] [] 64 = (eStr2, 12) := by decide
    simp only [IniConfigFile_putDouble, IniConfigFile_putString,
      IniConfigFile_getDouble, formatE6_dblCex2, CResult.map, fileOf,
      INICONFIGFILE_VALID]
    norm_num [fsSet, hput, hget, strtod_eStr2]
  · rw [dblCex2_eq]
    norm_num

end IniSpec
